import Mathlib

/-!
Verification of the layered DNS discovery engine (dns_explorer.py) and its
graph model (dns_graph.py). The Python source is embedded shallowly: Python
sets become duplicate-free lists of strings in insertion order, Python dicts
become ordered association lists, the external DNS resolver becomes a
function parameter, and the engine is a pure state-passing loop. Print
statements and figure rendering are dropped; everything that touches the
stored data (visited set, layer map, edge list, extracted domain sets, DOT
text) is modelled.
-/

namespace DnsSpec

/-! ## Python string primitives, on explicit character lists -/

/-- Python str.rstrip applied with the dot character: remove every trailing
dot. Used on every record-derived value before it enters a result set. -/
def pyRstripDot (s : String) : String :=
  ((s.data.reverse.dropWhile (fun c => c = '.')).reverse).asString

/-- Python str.strip applied with the double-quote character: remove the
quote from both ends (used on the last CAA field). -/
def pyStripQuote (s : String) : String :=
  let l := s.data.dropWhile (fun c => c = '"')
  ((l.reverse.dropWhile (fun c => c = '"')).reverse).asString

/-- Python str.split with a one-character separator: cut at every occurrence
of the separator, keeping empty pieces. -/
def splitOnChar (sep : Char) : List Char → List (List Char)
  | [] => [[]]
  | c :: cs =>
    if c = sep then [] :: splitOnChar sep cs
    else
      match splitOnChar sep cs with
      | t :: ts => (c :: t) :: ts
      | [] => [[c]]

/-- Cut a character list at every character satisfying the predicate,
keeping empty pieces. -/
def splitOnPred (p : Char → Bool) : List Char → List (List Char)
  | [] => [[]]
  | c :: cs =>
    if p c then [] :: splitOnPred p cs
    else
      match splitOnPred p cs with
      | t :: ts => (c :: t) :: ts
      | [] => [[c]]

/-- The ASCII whitespace of Python str.split() and of the regex class
backslash-s: space, tab, newline, carriage return, vertical tab and form
feed. -/
def pyIsSpace (c : Char) : Bool :=
  c.isWhitespace || c = '\x0b' || c = '\x0c'

/-- Python str.split() with no separator: split on whitespace and drop the
empty pieces, so runs of whitespace count as one separator. -/
def pySplitWs (s : String) : List String :=
  ((splitOnPred pyIsSpace s.data).filter
    (fun p => !p.isEmpty)).map List.asString

/-- Substring occurrence on character lists, for the Python in operator. -/
def pyContainsL (needle : List Char) : List Char → Bool
  | [] => needle.isEmpty
  | c :: cs => List.isPrefixOf needle (c :: cs) || pyContainsL needle cs

/-- Python substring membership test (the in operator on strings). -/
def pyContains (hay needle : String) : Bool :=
  pyContainsL needle.data hay.data

/-- A token character of an SPF directive argument: not whitespace and not a
double quote. This is the character class of the two findall patterns in the
TXT branch of extract_domains_from_records. -/
def spfTokChar (c : Char) : Bool := !pyIsSpace c && c != '"'

/-- The scan behind spfFindall, structurally recursive on a fuel that bounds
the length of the remaining text: the scan tries the pattern at every
position, and after a match resumes right after the matched text, exactly as
the regex engine does for the include: and redirect= patterns. The key is
passed with an explicit head character so that it is never empty, and every
step shortens the text, so fuel equal to the length is enough. -/
def spfFindallAux (k : Char) (key : List Char) : Nat → List Char → List String
  | 0, _ => []
  | _, [] => []
  | fuel + 1, c :: cs =>
    if List.isPrefixOf (k :: key) (c :: cs) then
      let rest := cs.drop key.length
      let tok := rest.takeWhile spfTokChar
      if tok.isEmpty then spfFindallAux k key fuel cs
      else tok.asString :: spfFindallAux k key fuel (rest.drop tok.length)
    else spfFindallAux k key fuel cs

/-- re.findall of a fixed key followed by a nonempty maximal run of token
characters. -/
def spfFindall (k : Char) (key : List Char) (cs : List Char) : List String :=
  spfFindallAux k key cs.length cs

/-! ## Python set and dict models -/

/-- A Python set of strings, as a duplicate-free list in insertion order. -/
abbrev StrSet := List String

/-- Python set.add: a member is left alone, a new element is appended. -/
def setInsert (x : String) (s : StrSet) : StrSet :=
  if x ∈ s then s else s ++ [x]

/-- Python set.update / union: insert every element of the second set. -/
def setUnion (s t : StrSet) : StrSet :=
  t.foldl (fun a x => setInsert x a) s

/-- An association-list lookup by propositional key equality, standing in
for Python dict indexing and dict.get. -/
def dictFind {α β : Type} [DecidableEq α] (k : α) : List (α × β) → Option β
  | [] => none
  | e :: es => if e.1 = k then some e.2 else dictFind k es

/-- Python set difference: keep the members not in the second set. -/
def setDiff (s t : StrSet) : StrSet :=
  s.filter (fun x => decide (x ∉ t))

/-- Assignment into a Python dict modelled as an ordered association list:
an existing key keeps its position and gets the new value, a new key is
appended at the end. -/
def dictInsert (m : List (String × Nat)) (k : String) (v : Nat) :
    List (String × Nat) :=
  if (dictFind k m).isSome then
    m.map (fun e => if e.1 = k then (k, v) else e)
  else m ++ [(k, v)]

/-- Lexicographic comparison of character lists by code point, the order
Python sorted() uses on strings. -/
def charListLe : List Char → List Char → Bool
  | [], _ => true
  | _ :: _, [] => false
  | a :: as, b :: bs =>
    if a.toNat < b.toNat then true
    else if b.toNat < a.toNat then false
    else charListLe as bs

/-- Python string comparison, lexicographic by code point. -/
def pyStrLe (a b : String) : Bool := charListLe a.data b.data

/-- Lexicographic insertion of a string into an ascending sorted list, used
to model sorted() on a set of domain names. -/
def insertAsc (x : String) : List String → List String
  | [] => [x]
  | y :: ys => if pyStrLe x y then x :: y :: ys else y :: insertAsc x ys

/-- Python sorted() on a collection of strings (ascending lexicographic). -/
def sortStrings (l : List String) : List String :=
  l.foldr insertAsc []

/-! ## dns_explorer.py -/

/-- get_parent_domain from dns_explorer.py: split the domain on the dot; with
more than 2 labels the parent is the domain with the leftmost label dropped,
otherwise there is no parent. -/
def get_parent_domain (domain : String) : Option String :=
  let parts := splitOnChar '.' domain.data
  if 2 < parts.length then some ((List.intercalate (String.toList (".")) (parts.drop 1)).asString)
  else none

/-- A resolved record set: a Python dict from record-type label to the list
of textual record values, as returned by resolve_all_records. -/
abbrev RecordSet := List (String × List String)

/-- The CNAME branch: each value is itself a target, trailing dot stripped. -/
def cnameTargets (v : String) : List String := [pyRstripDot v]

/-- The MX branch: the second whitespace token is the exchange; values with
fewer than 2 tokens contribute nothing. -/
def mxTargets (v : String) : List String :=
  match pySplitWs v with
  | _ :: x :: _ => [pyRstripDot x]
  | _ => []

/-- The NS branch: each value is a target directly. -/
def nsTargets (v : String) : List String := [pyRstripDot v]

/-- The SOA branch: the first whitespace token is the primary name server. -/
def soaTargets (v : String) : List String :=
  match pySplitWs v with
  | x :: _ => [pyRstripDot x]
  | [] => []

/-- The SRV branch: the fourth whitespace token is the target; values with
fewer than 4 tokens contribute nothing. -/
def srvTargets (v : String) : List String :=
  match pySplitWs v with
  | _ :: _ :: _ :: x :: _ => [pyRstripDot x]
  | _ => []

/-- The TXT branch: SPF include: and redirect= directive arguments, each with
trailing dots stripped, guarded by the substring tests of the source. -/
def txtTargets (txt : String) : List String :=
  let incs :=
    if pyContains txt ("include:") then
      (spfFindall 'i' (String.toList ("nclude:")) txt.data).map pyRstripDot
    else []
  let reds :=
    if pyContains txt ("redirect=") then
      (spfFindall 'r' (String.toList ("edirect=")) txt.data).map pyRstripDot
    else []
  incs ++ reds

/-- The CAA branch: with at least 3 whitespace tokens, the last token with
surrounding quotes stripped and trailing dots removed is a target when it
contains a dot and does not start with http. -/
def caaTargets (v : String) : List String :=
  if 3 ≤ (pySplitWs v).length then
    if pyContains (pyRstripDot (pyStripQuote ((pySplitWs v).getLastD ("")))) (".") &&
        !List.isPrefixOf (String.toList ("http"))
          (pyRstripDot (pyStripQuote ((pySplitWs v).getLastD ("")))).data then
      [pyRstripDot (pyStripQuote ((pySplitWs v).getLastD ("")))]
    else []
  else []

/-- The PTR branch: each value is a target directly. -/
def ptrTargets (v : String) : List String := [pyRstripDot v]

/-- One record-type loop of extract_domains_from_records: every value of the
type contributes the targets of its per-value extractor to the set. -/
def addFromValues (g : String → List String) (acc : StrSet)
    (vs : List String) : StrSet :=
  vs.foldl (fun s v => (g v).foldl (fun s2 x => setInsert x s2) s) acc

/-- The guarded form of one record-type branch: a type absent from the
record set contributes nothing. -/
def recStep (records : RecordSet) (rtype : String) (g : String → List String)
    (acc : StrSet) : StrSet :=
  match dictFind rtype records with
  | some vs => addFromValues g acc vs
  | none => acc

/-- The record-type passes of extract_domains_from_records in source order:
CNAME, MX, NS, SOA, SRV, TXT, CAA, PTR, each applied to the set built by the
previous passes, starting from the empty set. -/
def allRecordSteps (records : RecordSet) : StrSet :=
  recStep records ("PTR") ptrTargets
    (recStep records ("CAA") caaTargets
      (recStep records ("TXT") txtTargets
        (recStep records ("SRV") srvTargets
          (recStep records ("SOA") soaTargets
            (recStep records ("NS") nsTargets
              (recStep records ("MX") mxTargets
                (recStep records ("CNAME") cnameTargets [])))))))

/-- extract_domains_from_records from dns_explorer.py: the set of domains
found in the records resolved for current_domain, with the structural parent
added at the end. The guard on the parent mirrors Python truthiness, under
which None and the empty string are both false. -/
def extract_domains_from_records (records : RecordSet) (current_domain : String) :
    StrSet :=
  match get_parent_domain current_domain with
  | some p =>
    if p ≠ "" then setInsert p (allRecordSteps records)
    else allRecordSteps records
  | none => allRecordSteps records

/-! ## The discovery engine -/

/-- The exploration state accumulated by explore_dns: the visited set
all_resolved, the edge list graph_edges and the layer dict domain_layers of
the source, plus two instrumentation logs. layerLog records every assignment
made into domain_layers in order, and resolvedLog records every call of the
record resolver in order; both are write-only and drive no behaviour. -/
structure EngineState where
  allResolved : StrSet
  graphEdges : List (String × String)
  domainLayers : List (String × Nat)
  layerLog : List (String × Nat)
  resolvedLog : List String
deriving Repr, DecidableEq

/-- The body of the loop over sorted(domains) in resolve_layer: record the
layer of the domain, resolve its records, add the parent edge and schedule
the parent when it is neither resolved nor in the current layer, then add an
edge to and schedule every extracted domain that is neither resolved nor in
the current layer. The guard on the parent mirrors Python truthiness. The
set of newly found domains is iterated in the deterministic insertion order
of the extracted set; Python iterates it in unspecified set order, and no
claim depends on the relative order of these appends. The parent guard of
the source (if parent and parent not in all_resolved and parent not in
domains) is split out as parentCandidate, mirroring Python truthiness. -/
def parentCandidate (allResolved domains : StrSet) (domain : String) :
    Option String :=
  match get_parent_domain domain with
  | some p => if p ≠ "" ∧ p ∉ allResolved ∧ p ∉ domains then some p else none
  | none => none

/-- The edge the parent check of resolve_layer appends, when it fires. -/
def parentEdges (allResolved domains : StrSet) (domain : String) :
    List (String × String) :=
  match parentCandidate allResolved domains domain with
  | some p => [(domain, p)]
  | none => []

/-- The set new_domains of resolve_layer: the extracted domains that are
neither resolved already nor in the current layer. -/
def newDomains (resolver : String → RecordSet) (allResolved domains : StrSet)
    (domain : String) : StrSet :=
  setDiff (setDiff (extract_domains_from_records (resolver domain) domain)
    allResolved) domains

def processDomain (resolver : String → RecordSet) (layer_num : Nat)
    (domains allResolved : StrSet)
    (acc : EngineState × StrSet) (domain : String) : EngineState × StrSet :=
  let st := acc.1
  let nextDomains := acc.2
  let nd := newDomains resolver allResolved domains domain
  let st2 : EngineState :=
    { allResolved := st.allResolved
      graphEdges := st.graphEdges ++ parentEdges allResolved domains domain ++
        nd.map (fun t => (domain, t))
      domainLayers := dictInsert st.domainLayers domain layer_num
      layerLog := st.layerLog ++ [(domain, layer_num)]
      resolvedLog := st.resolvedLog ++ [domain] }
  let next2 :=
    match parentCandidate allResolved domains domain with
    | some p => setUnion (setInsert p nextDomains) nd
    | none => setUnion nextDomains nd
  (st2, next2)

/-- resolve_layer from dns_explorer.py: iterate the current layer in sorted
order, threading the engine state and collecting next_domains. The visited
set all_resolved is read but never written inside a layer. -/
def resolve_layer (resolver : String → RecordSet) (domains : StrSet)
    (layer_num : Nat) (allResolved : StrSet) (st : EngineState) :
    EngineState × StrSet :=
  (sortStrings domains).foldl
    (processDomain resolver layer_num domains allResolved) (st, ([] : StrSet))

/-- One iteration of the layer loop of explore_dns, taken when to_resolve is
not empty: merge to_resolve into all_resolved, then run resolve_layer on it,
returning the new engine state and the next frontier. -/
def layerStep (resolver : String → RecordSet) (layer : Nat) (current : StrSet)
    (st : EngineState) : EngineState × StrSet :=
  resolve_layer resolver (setDiff current st.allResolved) layer
    (setUnion st.allResolved (setDiff current st.allResolved))
    { st with allResolved := setUnion st.allResolved (setDiff current st.allResolved) }

/-- The layer loop of explore_dns. The fuel counts the remaining iterations
of range(1, max_layers + 1) and layer is the index of the coming layer: the
loop stops when the fuel is exhausted or nothing is left to resolve. -/
def exploreLoop (resolver : String → RecordSet) :
    Nat → Nat → StrSet → EngineState → EngineState
  | 0, _, _, st => st
  | fuel + 1, layer, currentDomains, st =>
    if (setDiff currentDomains st.allResolved).isEmpty then st
    else
      exploreLoop resolver fuel (layer + 1)
        (layerStep resolver layer currentDomains st).2
        (layerStep resolver layer currentDomains st).1

/-- explore_dns from dns_explorer.py with the DNS resolver as a parameter:
run up to max_layers layers starting from the given domain and return the
final accumulated state. The function performs no validation of its
arguments; max_layers = 0 gives an empty loop. -/
def explore_dns (resolver : String → RecordSet) (domain : String)
    (max_layers : Nat) : EngineState :=
  exploreLoop resolver max_layers 1 [domain]
    { allResolved := [], graphEdges := [], domainLayers := [],
      layerLog := [], resolvedLog := [] }

/-- The record resolver that finds no records for any domain. -/
def emptyResolver : String → RecordSet := fun _ => []

/-! ## dns_graph.py: the directed graph model

networkx.DiGraph is modelled by its insertion-ordered node list (with the
optional layer attribute) and an insertion-ordered adjacency list whose key
order equals the node order; successor lists are duplicate-free because
DiGraph.add_edge of an existing edge is a no-op. -/

/-- The directed graph: node entries carry the layer attribute when one was
set, and the adjacency list is kept parallel to the node list. -/
structure DiGraph where
  nodes : List (String × Option Nat)
  adj : List (String × List String)
deriving Repr, DecidableEq

/-- The empty graph. -/
def emptyGraph : DiGraph := { nodes := [], adj := [] }

/-- G.add_node(domain, layer=layer): an existing node keeps its position and
gets the attribute, a new node is appended. -/
def add_node_layer (g : DiGraph) (d : String) (l : Nat) : DiGraph :=
  if (dictFind d g.nodes).isSome then
    { g with nodes := g.nodes.map (fun e => if e.1 = d then (d, some l) else e) }
  else
    { nodes := g.nodes ++ [(d, some l)], adj := g.adj ++ [(d, [])] }

/-- The node creation add_edge performs for a missing endpoint: appended with
no layer attribute. -/
def ensureNode (g : DiGraph) (d : String) : DiGraph :=
  if (dictFind d g.nodes).isSome then g
  else { nodes := g.nodes ++ [(d, none)], adj := g.adj ++ [(d, [])] }

/-- G.add_edge(source, target): create missing endpoints, then record the
target in the source's successor list unless it is already there (a repeated
directed edge is absorbed). -/
def add_edge (g : DiGraph) (s t : String) : DiGraph :=
  let g1 := ensureNode (ensureNode g s) t
  { g1 with
    adj := g1.adj.map (fun e =>
      if e.1 = s then (e.1, if t ∈ e.2 then e.2 else e.2 ++ [t]) else e) }

/-- The graph draw_dns_graph builds before laying out and exporting: all
nodes of the layer dict first, in dict order, then every stored edge. -/
def buildGraph (all_domains : List (String × Nat))
    (edges : List (String × String)) : DiGraph :=
  edges.foldl (fun g e => add_edge g e.1 e.2)
    (all_domains.foldl (fun g dl => add_node_layer g dl.1 dl.2) emptyGraph)

/-- G.edges(): successors of each node in node order. -/
def digraphEdges (g : DiGraph) : List (String × String) :=
  g.adj.flatMap (fun e => e.2.map (fun t => (e.1, t)))

/-- The layer attribute of a node entry, with the networkx default
G.nodes[n].get(layer, 1). -/
def layerOfEntry (e : String × Option Nat) : Nat := e.2.getD 1

/-- The layer attribute looked up by node name, with the same default. -/
def nodeLayerD (g : DiGraph) (n : String) : Nat :=
  match dictFind n g.nodes with
  | some (some l) => l
  | _ => 1

/-! ## dns_graph.py: the DOT serializer -/

/-- The layer color mapping of draw_dns_graph. -/
def layer_colors : List (Nat × String) :=
  [(1, "#6624a8"), (2, "#e67e30"), (3, "#e60029"),
   (4, "#96CEB4"), (5, "#4FC3F7"), (6, "#FFD54F")]

/-- The fallback color of draw_dns_graph. -/
def default_color : String := "#DDA0DD"

/-- layer_colors.get(layer, default_color). -/
def colorFor (lc : List (Nat × String)) (dc : String) (l : Nat) : String :=
  (dictFind l lc).getD dc

/-- Python node.replace of a double quote by backslash quote. -/
def dotEscape (s : String) : String :=
  (s.data.foldr (fun c acc => if c = '"' then '\\' :: '"' :: acc else c :: acc)
    []).asString

/-- One node statement of the DOT output. -/
def dotNodeLine (n color : String) : String :=
  "    \"" ++ dotEscape n ++ "\" [fillcolor=\"" ++ color ++ "\"];"

/-- One edge statement of the DOT output. -/
def dotEdgeLine (s t color : String) : String :=
  "    \"" ++ dotEscape s ++ "\" -> \"" ++ dotEscape t ++ "\" [color=\"" ++ color ++ "\"];"

/-- The fixed preamble export_to_dot writes, as lines (the final write of the
preamble ends in a blank line). -/
def dotHeader : List String :=
  ["digraph DNS \x7b",
   "    bgcolor=\"#1a1a2e\";",
   "    node [style=filled, fontcolor=white, fontname=\"Arial\", fontsize=12];",
   "    edge [color=\"#666666\"];",
   "    rankdir=LR;",
   "    overlap=false;",
   "    splines=true;",
   "    nodesep=0.5;",
   "    ranksep=1.5;",
   ""]

/-- export_to_dot from dns_graph.py, as the list of lines written to the
file: the preamble, one node statement per node in node order colored by the
node's layer, a blank line, one edge statement per graph edge colored by the
source node's layer, and the closing brace. -/
def export_to_dot (g : DiGraph) (lc : List (Nat × String)) (dc : String) :
    List String :=
  dotHeader ++
  g.nodes.map (fun e => dotNodeLine e.1 (colorFor lc dc (layerOfEntry e))) ++
  [""] ++
  (digraphEdges g).map (fun e => dotEdgeLine e.1 e.2 (colorFor lc dc (nodeLayerD g e.1))) ++
  ["\x7d"]

/-! ## dns_graph.py: the hierarchical layout -/

/-- x spacing of hierarchical_layout. -/
def x_spacing : ℚ := 4

/-- y spacing of hierarchical_layout. -/
def y_spacing : ℚ := 3 / 2

/-- Ascending insertion of a natural number into a sorted list. -/
def insertAscNat (x : Nat) : List Nat → List Nat
  | [] => [x]
  | y :: ys => if x ≤ y then x :: y :: ys else y :: insertAscNat x ys

/-- Python sorted() on the distinct layer keys. -/
def sortNat (l : List Nat) : List Nat := l.foldr insertAscNat []

/-- The distinct layer values of the graph in ascending order: the keys of
the layers dict of hierarchical_layout, sorted. -/
def sortedLayers (g : DiGraph) : List Nat :=
  sortNat ((g.nodes.map layerOfEntry).dedup)

/-- The nodes of one layer, in node insertion order: the value list the
layers dict of hierarchical_layout accumulates for that key. -/
def layerNodes (g : DiGraph) (l : Nat) : List String :=
  (g.nodes.filter (fun e => decide (layerOfEntry e = l))).map (fun e => e.1)

/-- G.predecessors(n): the sources of edges into n. The order here is node
order rather than edge insertion order; predecessors are only ever consumed
through their sum and count, which no order affects. -/
def preds (g : DiGraph) (n : String) : List String :=
  (g.adj.filter (fun e => decide (n ∈ e.2))).map (fun e => e.1)

/-- The target y of a node: the mean y of its already-positioned
predecessors, and 0 when it has none. -/
def targetY (g : DiGraph) (pos : List (String × ℚ × ℚ)) (n : String) : ℚ :=
  let parentYs := ((preds g n).filter (fun p => (dictFind p pos).isSome)).map
    (fun p => ((dictFind p pos).getD (0, 0)).2)
  if parentYs.isEmpty then 0 else parentYs.sum / (parentYs.length : ℚ)

/-- Stable descending insertion by a rational key: an element is placed
before the first element of strictly smaller key, so equal keys keep their
original relative order, as Python sorted with reverse=True does. -/
def insertDesc (key : String → ℚ) (x : String) : List String → List String
  | [] => [x]
  | y :: ys => if key x > key y then x :: y :: ys else y :: insertDesc key x ys

/-- Python sorted(nodes, key=..., reverse=True): stable descending sort. -/
def stableSortDesc (key : String → ℚ) (l : List String) : List String :=
  l.foldl (fun acc x => insertDesc key x acc) []

/-- The mean of a list of rationals, sum over count. -/
def meanQ (l : List ℚ) : ℚ := l.sum / (l.length : ℚ)

/-- Place one non-lowest layer: a single node sits at its own target y, and
otherwise the nodes are evenly spaced by y_spacing downward from the start
height, the mean of the layer's targets plus half the total height, which
centers the column on that mean. -/
def placeRun (x : ℚ) (tgt : String → ℚ) (ns : List String) :
    List (String × ℚ × ℚ) :=
  match ns with
  | [n] => [(n, (x, tgt n))]
  | _ =>
    ns.enum.map (fun ie =>
      (ie.2, (x, meanQ (ns.map tgt) + ((ns.length : ℚ) - 1) * y_spacing / 2 -
        (ie.1 : ℚ) * y_spacing)))

/-- The nodes of one non-lowest layer sorted by target y descending, ties
keeping the node insertion order (Python sorted is stable). -/
def layerSorted (g : DiGraph) (pos : List (String × ℚ × ℚ)) (l : Nat) :
    List String :=
  stableSortDesc (targetY g pos) (layerNodes g l)

/-- The positions one layoutStep appends. -/
def layerPlacement (g : DiGraph) (pos : List (String × ℚ × ℚ)) (l : Nat) :
    List (String × ℚ × ℚ) :=
  placeRun ((l : ℚ) * x_spacing) (targetY g pos) (layerSorted g pos l)

/-- One iteration of the layer loop of hierarchical_layout: compute every
target, sort the layer by target descending (ties keeping node order), and
append the placed positions. -/
def layoutStep (g : DiGraph) (pos : List (String × ℚ × ℚ)) (l : Nat) :
    List (String × ℚ × ℚ) :=
  pos ++ layerPlacement g pos l

/-- hierarchical_layout from dns_graph.py: the lowest layer is placed in
lexicographic order on a vertical line centered at 0, and every further
layer is placed by layoutStep. -/
def hierarchical_layout (g : DiGraph) : List (String × ℚ × ℚ) :=
  match sortedLayers g with
  | [] => []
  | first :: restLayers =>
    let firstNodes := sortStrings (layerNodes g first)
    let totalH : ℚ := ((firstNodes.length : ℚ) - 1) * y_spacing
    let startY := totalH / 2
    let pos0 := firstNodes.enum.map
      (fun ie => (ie.2, ((first : ℚ) * x_spacing, startY - (ie.1 : ℚ) * y_spacing)))
    restLayers.foldl (layoutStep g) pos0

/-! ## Lemmas about the set and dict models -/

theorem mem_setInsert {x y : String} {s : StrSet} :
    x ∈ setInsert y s ↔ x = y ∨ x ∈ s := by
  unfold setInsert
  split
  · constructor
    · exact fun h => Or.inr h
    · rintro (rfl | h) <;> assumption
  · simp [or_comm]

theorem nodup_setInsert {y : String} {s : StrSet} (h : s.Nodup) :
    (setInsert y s).Nodup := by
  unfold setInsert
  split
  · exact h
  · rename_i hy
    rw [List.nodup_append]
    refine ⟨h, List.nodup_singleton y, ?_⟩
    intro a ha hb
    simp only [List.mem_singleton] at hb
    subst hb
    exact hy ha

theorem mem_setUnion {x : String} {s t : StrSet} :
    x ∈ setUnion s t ↔ x ∈ s ∨ x ∈ t := by
  induction t generalizing s with
  | nil => simp [setUnion]
  | cons y ys ih =>
    simp only [setUnion, List.foldl_cons] at ih ⊢
    rw [ih, mem_setInsert]
    simp only [List.mem_cons]
    tauto

theorem nodup_setUnion {s t : StrSet} (h : s.Nodup) : (setUnion s t).Nodup := by
  induction t generalizing s with
  | nil => exact h
  | cons y ys ih =>
    simpa only [setUnion, List.foldl_cons] using ih (nodup_setInsert h)

theorem mem_setDiff {x : String} {s t : StrSet} :
    x ∈ setDiff s t ↔ x ∈ s ∧ x ∉ t := by
  simp [setDiff, List.mem_filter]

theorem nodup_setDiff {s t : StrSet} (h : s.Nodup) : (setDiff s t).Nodup :=
  h.filter _

theorem dictFind_map_ne {es : List (String × Nat)} {k x : String} {v : Nat}
    (hx : x ≠ k) :
    dictFind x (es.map (fun e => if e.1 = k then (k, v) else e)) =
      dictFind x es := by
  induction es with
  | nil => rfl
  | cons e es ih =>
    by_cases he : e.1 = k
    · have hne : e.1 ≠ x := by rw [he]; exact fun h => hx h.symm
      simp [dictFind, he, hne, Ne.symm hx, ih]
    · by_cases hex : e.1 = x <;> simp [dictFind, he, hex, hx, ih]

theorem dictFind_append_single_ne {m : List (String × Nat)} {k x : String}
    {v : Nat} (hx : x ≠ k) :
    dictFind x (m ++ [(k, v)]) = dictFind x m := by
  induction m with
  | nil => simp [dictFind, Ne.symm hx]
  | cons e es ih => by_cases hex : e.1 = x <;> simp [dictFind, hex, ih]

theorem dictFind_dictInsert {m : List (String × Nat)} {k x : String} {v : Nat} :
    dictFind x (dictInsert m k v) = if x = k then some v else dictFind x m := by
  by_cases hx : x = k
  · subst hx
    simp only [if_pos rfl]
    induction m with
    | nil => simp [dictInsert, dictFind]
    | cons e es ih =>
      by_cases he : e.1 = x
      · have hcond : (dictFind x (e :: es)).isSome = true := by
          simp [dictFind, he]
        simp [dictInsert, hcond, he, dictFind]
      · have key : dictInsert (e :: es) x v = e :: dictInsert es x v := by
          by_cases hsome : (dictFind x es).isSome <;>
            simp [dictInsert, dictFind, he, hsome]
        rw [key]
        simp [dictFind, he, ih]
  · rw [if_neg hx]
    unfold dictInsert
    split
    · exact dictFind_map_ne hx
    · exact dictFind_append_single_ne hx

theorem insertAsc_perm (x : String) (l : List String) :
    (insertAsc x l).Perm (x :: l) := by
  induction l with
  | nil => exact List.Perm.refl _
  | cons y ys ih =>
    unfold insertAsc
    split
    · exact List.Perm.refl _
    · exact ((ih.cons y).trans (List.Perm.swap x y ys))

theorem sortStrings_perm (l : List String) : (sortStrings l).Perm l := by
  induction l with
  | nil => exact List.Perm.refl _
  | cons y ys ih =>
    simpa [sortStrings] using ((insertAsc_perm y (sortStrings ys)).trans (ih.cons y))

theorem mem_sortStrings {x : String} {l : List String} :
    x ∈ sortStrings l ↔ x ∈ l :=
  (sortStrings_perm l).mem_iff

theorem nodup_sortStrings {l : List String} (h : l.Nodup) :
    (sortStrings l).Nodup :=
  ((sortStrings_perm l).nodup_iff).mpr h

/-! ## Lemmas about the extractor -/

theorem mem_foldl_setInsert {x : String} {xs : List String} {acc : StrSet} :
    x ∈ xs.foldl (fun s2 y => setInsert y s2) acc ↔ x ∈ acc ∨ x ∈ xs := by
  induction xs generalizing acc with
  | nil => simp
  | cons y ys ih =>
    simp only [List.foldl_cons, ih, mem_setInsert, List.mem_cons]
    tauto

theorem nodup_foldl_setInsert {xs : List String} {acc : StrSet}
    (h : acc.Nodup) : (xs.foldl (fun s2 y => setInsert y s2) acc).Nodup := by
  induction xs generalizing acc with
  | nil => exact h
  | cons y ys ih => exact ih (nodup_setInsert h)

theorem mem_addFromValues {g : String → List String} {x : String}
    {acc : StrSet} {vs : List String} :
    x ∈ addFromValues g acc vs ↔ x ∈ acc ∨ ∃ v ∈ vs, x ∈ g v := by
  induction vs generalizing acc with
  | nil => simp [addFromValues]
  | cons v vs ih =>
    simp only [addFromValues, List.foldl_cons] at ih ⊢
    rw [ih, mem_foldl_setInsert]
    simp only [List.mem_cons]
    constructor
    · rintro ((h | h) | ⟨w, hw, hx⟩)
      · exact Or.inl h
      · exact Or.inr ⟨v, Or.inl rfl, h⟩
      · exact Or.inr ⟨w, Or.inr hw, hx⟩
    · rintro (h | ⟨w, (rfl | hw), hx⟩)
      · exact Or.inl (Or.inl h)
      · exact Or.inl (Or.inr hx)
      · exact Or.inr ⟨w, hw, hx⟩

theorem nodup_addFromValues {g : String → List String} {acc : StrSet}
    {vs : List String} (h : acc.Nodup) : (addFromValues g acc vs).Nodup := by
  induction vs generalizing acc with
  | nil => exact h
  | cons v vs ih => exact ih (nodup_foldl_setInsert h)

theorem mem_recStep {records : RecordSet} {t x : String}
    {g : String → List String} {acc : StrSet} :
    x ∈ recStep records t g acc ↔
      x ∈ acc ∨ ∃ vs, dictFind t records = some vs ∧ ∃ v ∈ vs, x ∈ g v := by
  unfold recStep
  cases h : dictFind t records with
  | none => simp
  | some vs => simp [mem_addFromValues]

theorem nodup_recStep {records : RecordSet} {t : String}
    {g : String → List String} {acc : StrSet} (h : acc.Nodup) :
    (recStep records t g acc).Nodup := by
  unfold recStep
  cases dictFind t records with
  | none => exact h
  | some vs => exact nodup_addFromValues h

theorem nodup_allRecordSteps {records : RecordSet} :
    (allRecordSteps records).Nodup := by
  unfold allRecordSteps
  exact nodup_recStep (nodup_recStep (nodup_recStep (nodup_recStep
    (nodup_recStep (nodup_recStep (nodup_recStep (nodup_recStep
      List.nodup_nil)))))))

theorem nodup_extract {records : RecordSet} {d : String} :
    (extract_domains_from_records records d).Nodup := by
  unfold extract_domains_from_records
  cases get_parent_domain d with
  | none => exact nodup_allRecordSteps
  | some p =>
    show List.Nodup (if p ≠ "" then setInsert p (allRecordSteps records)
      else allRecordSteps records)
    by_cases hp : p ≠ ""
    · rw [if_pos hp]; exact nodup_setInsert nodup_allRecordSteps
    · rw [if_neg hp]; exact nodup_allRecordSteps

theorem parent_mem_extract {records : RecordSet} {d p : String}
    (hg : get_parent_domain d = some p) (hne : p ≠ "") :
    p ∈ extract_domains_from_records records d := by
  unfold extract_domains_from_records
  rw [hg]
  show p ∈ (if p ≠ "" then setInsert p (allRecordSteps records)
    else allRecordSteps records)
  rw [if_pos hne]
  exact mem_setInsert.mpr (Or.inl rfl)

theorem cnameTargets_rstrip {x v : String} (h : x ∈ cnameTargets v) :
    ∃ u, x = pyRstripDot u := by
  simp only [cnameTargets, List.mem_singleton] at h
  exact ⟨v, h⟩

theorem mxTargets_rstrip {x v : String} (h : x ∈ mxTargets v) :
    ∃ u, x = pyRstripDot u := by
  unfold mxTargets at h
  split at h <;> simp_all

theorem nsTargets_rstrip {x v : String} (h : x ∈ nsTargets v) :
    ∃ u, x = pyRstripDot u := by
  simp only [nsTargets, List.mem_singleton] at h
  exact ⟨v, h⟩

theorem soaTargets_rstrip {x v : String} (h : x ∈ soaTargets v) :
    ∃ u, x = pyRstripDot u := by
  unfold soaTargets at h
  split at h <;> simp_all

theorem srvTargets_rstrip {x v : String} (h : x ∈ srvTargets v) :
    ∃ u, x = pyRstripDot u := by
  unfold srvTargets at h
  split at h <;> simp_all

theorem txtTargets_rstrip {x v : String} (h : x ∈ txtTargets v) :
    ∃ u, x = pyRstripDot u := by
  unfold txtTargets at h
  simp only [List.mem_append] at h
  rcases h with h | h <;>
  · split at h <;> simp_all [List.mem_map]
    obtain ⟨u, _, hu⟩ := h
    exact ⟨u, hu.symm⟩

theorem caaTargets_rstrip {x v : String} (h : x ∈ caaTargets v) :
    ∃ u, x = pyRstripDot u := by
  unfold caaTargets at h
  split at h
  · split at h <;> simp_all
  · simp_all

theorem ptrTargets_rstrip {x v : String} (h : x ∈ ptrTargets v) :
    ∃ u, x = pyRstripDot u := by
  simp only [ptrTargets, List.mem_singleton] at h
  exact ⟨v, h⟩

theorem mem_allRecordSteps_rstrip {records : RecordSet} {x : String}
    (h : x ∈ allRecordSteps records) : ∃ u, x = pyRstripDot u := by
  unfold allRecordSteps at h
  rw [mem_recStep] at h
  rcases h with h | ⟨_, _, v, _, hv⟩
  · rw [mem_recStep] at h
    rcases h with h | ⟨_, _, v, _, hv⟩
    · rw [mem_recStep] at h
      rcases h with h | ⟨_, _, v, _, hv⟩
      · rw [mem_recStep] at h
        rcases h with h | ⟨_, _, v, _, hv⟩
        · rw [mem_recStep] at h
          rcases h with h | ⟨_, _, v, _, hv⟩
          · rw [mem_recStep] at h
            rcases h with h | ⟨_, _, v, _, hv⟩
            · rw [mem_recStep] at h
              rcases h with h | ⟨_, _, v, _, hv⟩
              · rw [mem_recStep] at h
                rcases h with h | ⟨_, _, v, _, hv⟩
                · simp at h
                · exact cnameTargets_rstrip hv
              · exact mxTargets_rstrip hv
            · exact nsTargets_rstrip hv
          · exact soaTargets_rstrip hv
        · exact srvTargets_rstrip hv
      · exact txtTargets_rstrip hv
    · exact caaTargets_rstrip hv
  · exact ptrTargets_rstrip hv

/-! ## Lemmas about one resolve_layer step and its fold -/

theorem parentCandidate_spec {allResolved domains : StrSet} {d p : String}
    (h : parentCandidate allResolved domains d = some p) :
    get_parent_domain d = some p ∧ p ≠ "" ∧ p ∉ allResolved ∧ p ∉ domains := by
  unfold parentCandidate at h
  cases hg : get_parent_domain d with
  | none => rw [hg] at h; exact absurd h (by simp)
  | some q =>
    rw [hg] at h
    have h2 : (if q ≠ "" ∧ q ∉ allResolved ∧ q ∉ domains then some q
        else none) = some p := h
    by_cases hc : q ≠ "" ∧ q ∉ allResolved ∧ q ∉ domains
    · rw [if_pos hc] at h2
      obtain rfl : q = p := by injection h2
      exact ⟨rfl, hc.1, hc.2.1, hc.2.2⟩
    · rw [if_neg hc] at h2
      exact absurd h2 (by simp)

theorem parentCandidate_eq_some {allResolved domains : StrSet} {d p : String}
    (hg : get_parent_domain d = some p) (hne : p ≠ "")
    (ha : p ∉ allResolved) (hd : p ∉ domains) :
    parentCandidate allResolved domains d = some p := by
  unfold parentCandidate
  rw [hg]
  show (if p ≠ "" ∧ p ∉ allResolved ∧ p ∉ domains then some p
    else none) = some p
  rw [if_pos ⟨hne, ha, hd⟩]

theorem mem_newDomains {resolver : String → RecordSet}
    {allResolved domains : StrSet} {d t : String} :
    t ∈ newDomains resolver allResolved domains d ↔
      t ∈ extract_domains_from_records (resolver d) d ∧
        t ∉ allResolved ∧ t ∉ domains := by
  unfold newDomains
  rw [mem_setDiff, mem_setDiff]
  tauto

theorem processDomain_allResolved {resolver : String → RecordSet}
    {L : Nat} {dm ar : StrSet} {acc : EngineState × StrSet} {d : String} :
    (processDomain resolver L dm ar acc d).1.allResolved = acc.1.allResolved :=
  rfl

theorem processDomain_resolvedLog {resolver : String → RecordSet}
    {L : Nat} {dm ar : StrSet} {acc : EngineState × StrSet} {d : String} :
    (processDomain resolver L dm ar acc d).1.resolvedLog =
      acc.1.resolvedLog ++ [d] :=
  rfl

theorem processDomain_layerLog {resolver : String → RecordSet}
    {L : Nat} {dm ar : StrSet} {acc : EngineState × StrSet} {d : String} :
    (processDomain resolver L dm ar acc d).1.layerLog =
      acc.1.layerLog ++ [(d, L)] :=
  rfl

theorem processDomain_domainLayers {resolver : String → RecordSet}
    {L : Nat} {dm ar : StrSet} {acc : EngineState × StrSet} {d : String} :
    (processDomain resolver L dm ar acc d).1.domainLayers =
      dictInsert acc.1.domainLayers d L :=
  rfl

theorem processDomain_graphEdges {resolver : String → RecordSet}
    {L : Nat} {dm ar : StrSet} {acc : EngineState × StrSet} {d : String} :
    (processDomain resolver L dm ar acc d).1.graphEdges =
      acc.1.graphEdges ++ parentEdges ar dm d ++
        (newDomains resolver ar dm d).map (fun t => (d, t)) :=
  rfl

theorem mem_processDomain_snd {resolver : String → RecordSet}
    {L : Nat} {dm ar : StrSet} {acc : EngineState × StrSet} {d y : String} :
    y ∈ (processDomain resolver L dm ar acc d).2 ↔
      y ∈ acc.2 ∨ parentCandidate ar dm d = some y ∨
        y ∈ newDomains resolver ar dm d := by
  show y ∈ (match parentCandidate ar dm d with
    | some p => setUnion (setInsert p acc.2) (newDomains resolver ar dm d)
    | none => setUnion acc.2 (newDomains resolver ar dm d)) ↔ _
  cases h : parentCandidate ar dm d with
  | none => rw [mem_setUnion]; simp
  | some p =>
    rw [mem_setUnion, mem_setInsert]
    simp only [Option.some.injEq]
    constructor
    · rintro ((rfl | hy) | hy)
      · exact Or.inr (Or.inl rfl)
      · exact Or.inl hy
      · exact Or.inr (Or.inr hy)
    · rintro (hy | rfl | hy)
      · exact Or.inl (Or.inr hy)
      · exact Or.inl (Or.inl rfl)
      · exact Or.inr hy

theorem nodup_processDomain_snd {resolver : String → RecordSet}
    {L : Nat} {dm ar : StrSet} {acc : EngineState × StrSet} {d : String}
    (h : acc.2.Nodup) : (processDomain resolver L dm ar acc d).2.Nodup := by
  show List.Nodup (match parentCandidate ar dm d with
    | some p => setUnion (setInsert p acc.2) (newDomains resolver ar dm d)
    | none => setUnion acc.2 (newDomains resolver ar dm d))
  cases parentCandidate ar dm d with
  | none => exact nodup_setUnion h
  | some p => exact nodup_setUnion (nodup_setInsert h)

theorem foldl_processDomain_allResolved {resolver : String → RecordSet}
    {L : Nat} {dm ar : StrSet} (l : List String) (acc : EngineState × StrSet) :
    (l.foldl (processDomain resolver L dm ar) acc).1.allResolved =
      acc.1.allResolved := by
  induction l generalizing acc with
  | nil => rfl
  | cons d ds ih => rw [List.foldl_cons, ih, processDomain_allResolved]

theorem foldl_processDomain_resolvedLog {resolver : String → RecordSet}
    {L : Nat} {dm ar : StrSet} (l : List String) (acc : EngineState × StrSet) :
    (l.foldl (processDomain resolver L dm ar) acc).1.resolvedLog =
      acc.1.resolvedLog ++ l := by
  induction l generalizing acc with
  | nil => simp
  | cons d ds ih =>
    rw [List.foldl_cons, ih, processDomain_resolvedLog]
    simp

theorem foldl_processDomain_layerLog {resolver : String → RecordSet}
    {L : Nat} {dm ar : StrSet} (l : List String) (acc : EngineState × StrSet) :
    (l.foldl (processDomain resolver L dm ar) acc).1.layerLog =
      acc.1.layerLog ++ l.map (fun d => (d, L)) := by
  induction l generalizing acc with
  | nil => simp
  | cons d ds ih =>
    rw [List.foldl_cons, ih, processDomain_layerLog]
    simp

theorem foldl_processDomain_find {resolver : String → RecordSet}
    {L : Nat} {dm ar : StrSet} (l : List String) (acc : EngineState × StrSet)
    (x : String) :
    dictFind x (l.foldl (processDomain resolver L dm ar) acc).1.domainLayers =
      if x ∈ l then some L
      else dictFind x acc.1.domainLayers := by
  induction l generalizing acc with
  | nil => simp
  | cons d ds ih =>
    rw [List.foldl_cons, ih, processDomain_domainLayers, dictFind_dictInsert]
    by_cases hds : x ∈ ds <;> by_cases hxd : x = d <;>
      simp [hds, hxd, List.mem_cons]

theorem foldl_processDomain_next_mono {resolver : String → RecordSet}
    {L : Nat} {dm ar : StrSet} {y : String} (l : List String)
    (acc : EngineState × StrSet) (h : y ∈ acc.2) :
    y ∈ (l.foldl (processDomain resolver L dm ar) acc).2 := by
  induction l generalizing acc with
  | nil => exact h
  | cons d ds ih =>
    rw [List.foldl_cons]
    exact ih _ (mem_processDomain_snd.mpr (Or.inl h))

theorem foldl_processDomain_next_spec {resolver : String → RecordSet}
    {L : Nat} {dm ar : StrSet} {y : String} (l : List String)
    (acc : EngineState × StrSet)
    (h : y ∈ (l.foldl (processDomain resolver L dm ar) acc).2) :
    y ∈ acc.2 ∨ (y ∉ ar ∧ y ∉ dm) := by
  induction l generalizing acc with
  | nil => exact Or.inl h
  | cons d ds ih =>
    rw [List.foldl_cons] at h
    rcases ih _ h with hy | hy
    · rcases mem_processDomain_snd.mp hy with hy | hy | hy
      · exact Or.inl hy
      · obtain ⟨-, -, hp1, hp2⟩ := parentCandidate_spec hy
        exact Or.inr ⟨hp1, hp2⟩
      · exact Or.inr (mem_newDomains.mp hy).2
    · exact Or.inr hy

theorem foldl_processDomain_nodup_next {resolver : String → RecordSet}
    {L : Nat} {dm ar : StrSet} (l : List String) (acc : EngineState × StrSet)
    (h : acc.2.Nodup) :
    (l.foldl (processDomain resolver L dm ar) acc).2.Nodup := by
  induction l generalizing acc with
  | nil => exact h
  | cons d ds ih =>
    rw [List.foldl_cons]
    exact ih _ (nodup_processDomain_snd h)

theorem foldl_processDomain_graphEdges {resolver : String → RecordSet}
    {L : Nat} {dm ar : StrSet} (l : List String) (acc : EngineState × StrSet) :
    ∃ E, (l.foldl (processDomain resolver L dm ar) acc).1.graphEdges =
        acc.1.graphEdges ++ E ∧
      ∀ q ∈ E, q.1 ∈ l ∧ q.2 ∉ ar ∧ q.2 ∉ dm ∧
        q.2 ∈ (l.foldl (processDomain resolver L dm ar) acc).2 := by
  induction l generalizing acc with
  | nil => exact ⟨[], by simp, by simp⟩
  | cons d ds ih =>
    rw [List.foldl_cons]
    obtain ⟨E, hE, hprop⟩ := ih (processDomain resolver L dm ar acc d)
    refine ⟨parentEdges ar dm d ++
      (newDomains resolver ar dm d).map (fun t => (d, t)) ++ E, ?_, ?_⟩
    · rw [hE, processDomain_graphEdges]
      simp [List.append_assoc]
    · intro q hq
      simp only [List.mem_append] at hq
      rcases hq with (hq | hq) | hq
      · unfold parentEdges at hq
        cases hc : parentCandidate ar dm d with
        | none => rw [hc] at hq; simp at hq
        | some p =>
          rw [hc] at hq
          simp only [List.mem_singleton] at hq
          subst hq
          obtain ⟨-, -, hp1, hp2⟩ := parentCandidate_spec hc
          refine ⟨List.mem_cons_self d ds, hp1, hp2, ?_⟩
          exact foldl_processDomain_next_mono ds _
            (mem_processDomain_snd.mpr (Or.inr (Or.inl hc)))
      · simp only [List.mem_map] at hq
        obtain ⟨t, ht, rfl⟩ := hq
        obtain ⟨-, h1, h2⟩ := mem_newDomains.mp ht
        refine ⟨List.mem_cons_self d ds, h1, h2, ?_⟩
        exact foldl_processDomain_next_mono ds _
          (mem_processDomain_snd.mpr (Or.inr (Or.inr ht)))
      · obtain ⟨h1, h2, h3, h4⟩ := hprop q hq
        exact ⟨List.mem_cons_of_mem d h1, h2, h3, h4⟩

/-! ## Counting lemmas for the doubled parent edge -/

theorem count_map_pair (d p : String) (l : List String) :
    List.count ((d, p) : String × String) (l.map (fun t => (d, t))) =
      List.count p l := by
  induction l with
  | nil => simp
  | cons t ts ih =>
    simp only [List.map_cons, List.count_cons, ih]
    by_cases h : p = t <;> simp [h]

theorem count_parentEdges_ne {ar dm : StrSet} {e d p : String} (hed : e ≠ d) :
    List.count ((d, p) : String × String) (parentEdges ar dm e) = 0 := by
  unfold parentEdges
  cases parentCandidate ar dm e with
  | none => simp
  | some q =>
    rw [List.count_eq_zero]
    intro hmem
    simp only [List.mem_singleton, Prod.mk.injEq] at hmem
    exact hed hmem.1.symm

theorem count_map_pair_ne {e d p : String} (hed : e ≠ d) (l : List String) :
    List.count ((d, p) : String × String) (l.map (fun t => (e, t))) = 0 := by
  rw [List.count_eq_zero]
  intro hmem
  simp only [List.mem_map, Prod.mk.injEq] at hmem
  obtain ⟨t, -, hdt, -⟩ := hmem
  exact hed hdt

theorem foldl_processDomain_count {resolver : String → RecordSet}
    {L : Nat} {dm ar : StrSet} {d p : String}
    (hg : get_parent_domain d = some p) (hne : p ≠ "")
    (ha : p ∉ ar) (hd : p ∉ dm) (l : List String)
    (acc : EngineState × StrSet) :
    List.count ((d, p) : String × String)
        (l.foldl (processDomain resolver L dm ar) acc).1.graphEdges =
      List.count ((d, p) : String × String) acc.1.graphEdges +
        2 * l.count d := by
  induction l generalizing acc with
  | nil => simp
  | cons e es ih =>
    rw [List.foldl_cons, ih, processDomain_graphEdges, List.count_append,
      List.count_append]
    by_cases hed : e = d
    · subst hed
      have hpe : parentEdges ar dm e = [(e, p)] := by
        unfold parentEdges
        rw [parentCandidate_eq_some hg hne ha hd]
      have hmem : p ∈ newDomains resolver ar dm e :=
        mem_newDomains.mpr ⟨parent_mem_extract hg hne, ha, hd⟩
      have hnd : (newDomains resolver ar dm e).Nodup :=
        nodup_setDiff (nodup_setDiff nodup_extract)
      rw [hpe, count_map_pair, List.count_eq_one_of_mem hnd hmem,
        List.count_cons_self]
      simp [List.count_singleton]
      omega
    · rw [count_parentEdges_ne (fun h => hed h), count_map_pair_ne (fun h => hed h),
        List.count_cons_of_ne (fun h => hed h.symm)]
      omega

/-! ## Components of one layer iteration -/

theorem layerStep_fst_allResolved {resolver : String → RecordSet} {L : Nat}
    {cur : StrSet} {st : EngineState} :
    (layerStep resolver L cur st).1.allResolved =
      setUnion st.allResolved (setDiff cur st.allResolved) := by
  unfold layerStep resolve_layer
  rw [foldl_processDomain_allResolved]

theorem layerStep_fst_resolvedLog {resolver : String → RecordSet} {L : Nat}
    {cur : StrSet} {st : EngineState} :
    (layerStep resolver L cur st).1.resolvedLog =
      st.resolvedLog ++ sortStrings (setDiff cur st.allResolved) := by
  unfold layerStep resolve_layer
  rw [foldl_processDomain_resolvedLog]

theorem layerStep_fst_layerLog {resolver : String → RecordSet} {L : Nat}
    {cur : StrSet} {st : EngineState} :
    (layerStep resolver L cur st).1.layerLog =
      st.layerLog ++ (sortStrings (setDiff cur st.allResolved)).map
        (fun d => (d, L)) := by
  unfold layerStep resolve_layer
  rw [foldl_processDomain_layerLog]

theorem layerStep_fst_find {resolver : String → RecordSet} {L : Nat}
    {cur : StrSet} {st : EngineState} {x : String} :
    dictFind x (layerStep resolver L cur st).1.domainLayers =
      if x ∈ sortStrings (setDiff cur st.allResolved) then some L
      else dictFind x st.domainLayers := by
  unfold layerStep resolve_layer
  rw [foldl_processDomain_find]

theorem layerStep_snd_nodup {resolver : String → RecordSet} {L : Nat}
    {cur : StrSet} {st : EngineState} :
    (layerStep resolver L cur st).2.Nodup := by
  unfold layerStep resolve_layer
  exact foldl_processDomain_nodup_next _ _ List.nodup_nil

/-! ## The loop invariant behind the no-duplicate-visitation property -/

theorem exploreLoop_no_duplicates (resolver : String → RecordSet)
    (fuel : Nat) :
    ∀ (layer : Nat) (current : StrSet) (st : EngineState),
    current.Nodup → st.resolvedLog.Nodup → st.allResolved.Nodup →
    (∀ x, x ∈ st.resolvedLog ↔ x ∈ st.allResolved) →
    ((exploreLoop resolver fuel layer current st).resolvedLog.Nodup ∧
     (exploreLoop resolver fuel layer current st).allResolved.Nodup ∧
     ∀ x, x ∈ (exploreLoop resolver fuel layer current st).resolvedLog ↔
       x ∈ (exploreLoop resolver fuel layer current st).allResolved) := by
  induction fuel with
  | zero => exact fun layer current st _ hlog har hiff => ⟨hlog, har, hiff⟩
  | succ fuel ih =>
    intro layer current st hcur hlog har hiff
    rw [exploreLoop]
    by_cases hempty : (setDiff current st.allResolved).isEmpty
    · rw [if_pos hempty]
      exact ⟨hlog, har, hiff⟩
    · rw [if_neg hempty]
      apply ih
      · exact layerStep_snd_nodup
      · rw [layerStep_fst_resolvedLog, List.nodup_append]
        refine ⟨hlog, nodup_sortStrings (nodup_setDiff hcur), ?_⟩
        intro x hx hx2
        rw [mem_sortStrings, mem_setDiff] at hx2
        exact hx2.2 ((hiff x).mp hx)
      · rw [layerStep_fst_allResolved]
        exact nodup_setUnion har
      · intro x
        rw [layerStep_fst_resolvedLog, layerStep_fst_allResolved,
          List.mem_append, mem_sortStrings, mem_setUnion, mem_setDiff, hiff x]

/-! ## The layer invariant behind layer monotonicity -/

/-- The edge lemma at the level of one layer iteration. -/
theorem layerStep_fst_graphEdges (resolver : String → RecordSet) (L : Nat)
    (cur : StrSet) (st : EngineState) :
    ∃ E, (layerStep resolver L cur st).1.graphEdges = st.graphEdges ++ E ∧
      ∀ q ∈ E, q.1 ∈ sortStrings (setDiff cur st.allResolved) ∧
        q.2 ∉ setUnion st.allResolved (setDiff cur st.allResolved) ∧
        q.2 ∉ setDiff cur st.allResolved ∧
        q.2 ∈ (layerStep resolver L cur st).2 := by
  unfold layerStep resolve_layer
  exact foldl_processDomain_graphEdges _ _

/-- The invariant carried through the layer loop: the layer dict covers
exactly the visited set, all assigned layers are below the coming layer
index, the assignment log matches the dict and assigns each domain at most
once, and every recorded edge points from an assigned source to a target
that either has the next layer or is an unassigned member of the coming
frontier. -/
def LayersInv (layer : Nat) (current : StrSet) (st : EngineState) : Prop :=
  (∀ x, x ∈ st.allResolved ↔ (dictFind x st.domainLayers).isSome) ∧
  (∀ x L, dictFind x st.domainLayers = some L → L < layer) ∧
  (∀ x L, (x, L) ∈ st.layerLog ↔ dictFind x st.domainLayers = some L) ∧
  (st.layerLog.map Prod.fst).Nodup ∧
  (∀ a b, (a, b) ∈ st.graphEdges →
    ∃ La, dictFind a st.domainLayers = some La ∧
      (∀ Lb, dictFind b st.domainLayers = some Lb → Lb = La + 1) ∧
      (dictFind b st.domainLayers = none →
        b ∈ current ∧ b ∉ st.allResolved ∧ La + 1 = layer))

theorem layerStep_layersInv {resolver : String → RecordSet} {layer : Nat}
    {current : StrSet} {st : EngineState}
    (hcur : current.Nodup) (hinv : LayersInv layer current st) :
    LayersInv (layer + 1) (layerStep resolver layer current st).2
      (layerStep resolver layer current st).1 := by
  obtain ⟨h1, h2, h3, h4, h5⟩ := hinv
  obtain ⟨E, hE, hEprop⟩ := layerStep_fst_graphEdges resolver layer current st
  have hTR : ∀ x, x ∈ sortStrings (setDiff current st.allResolved) ↔
      (x ∈ current ∧ x ∉ st.allResolved) := by
    intro x
    rw [mem_sortStrings, mem_setDiff]
  refine ⟨?_, ?_, ?_, ?_, ?_⟩
  · intro x
    rw [layerStep_fst_allResolved, layerStep_fst_find, mem_setUnion, mem_setDiff]
    by_cases hx : x ∈ sortStrings (setDiff current st.allResolved)
    · rw [if_pos hx]
      simp only [Option.isSome_some, iff_true]
      exact Or.inr ((hTR x).mp hx)
    · rw [if_neg hx]
      rw [hTR] at hx
      constructor
      · rintro (h | h)
        · exact (h1 x).mp h
        · exact absurd h hx
      · intro h
        exact Or.inl ((h1 x).mpr h)
  · intro x L
    rw [layerStep_fst_find]
    by_cases hx : x ∈ sortStrings (setDiff current st.allResolved)
    · rw [if_pos hx]
      intro h
      obtain rfl : layer = L := by injection h
      omega
    · rw [if_neg hx]
      intro h
      exact Nat.lt_succ_of_lt (h2 x L h)
  · intro x L
    rw [layerStep_fst_layerLog, layerStep_fst_find, List.mem_append]
    by_cases hx : x ∈ sortStrings (setDiff current st.allResolved)
    · rw [if_pos hx]
      have hxnone : dictFind x st.domainLayers = none := by
        have := (hTR x).mp hx
        cases hfind : dictFind x st.domainLayers with
        | none => rfl
        | some q =>
          exact absurd ((h1 x).mpr (by rw [hfind]; exact rfl)) this.2
      constructor
      · rintro (h | h)
        · rw [h3 x L, hxnone] at h
          exact absurd h (by simp)
        · simp only [List.mem_map, Prod.mk.injEq] at h
          obtain ⟨u, hu, rfl, rfl⟩ := h
          rfl
      · intro h
        obtain rfl : layer = L := by injection h
        exact Or.inr (List.mem_map.mpr ⟨x, hx, rfl⟩)
    · rw [if_neg hx]
      rw [h3 x L]
      constructor
      · rintro (h | h)
        · exact h
        · simp only [List.mem_map, Prod.mk.injEq] at h
          obtain ⟨u, hu, rfl, rfl⟩ := h
          exact absurd hu hx
      · exact Or.inl
  · rw [layerStep_fst_layerLog, List.map_append, List.map_map]
    have hcomp : (Prod.fst ∘ fun d : String => (d, layer)) = id := by
      funext d
      rfl
    rw [hcomp, List.map_id, List.nodup_append]
    refine ⟨h4, nodup_sortStrings (nodup_setDiff hcur), ?_⟩
    intro x hx hx2
    simp only [List.mem_map] at hx
    obtain ⟨pr, hpr, rfl⟩ := hx
    have : dictFind pr.1 st.domainLayers = some pr.2 := (h3 pr.1 pr.2).mp hpr
    have hmem : pr.1 ∈ st.allResolved := (h1 pr.1).mpr (by rw [this]; exact rfl)
    exact ((hTR pr.1).mp hx2).2 hmem
  · intro a b hab
    rw [hE, List.mem_append] at hab
    rcases hab with hab | hab
    · obtain ⟨La, hfa, hsome, hnone⟩ := h5 a b hab
      have haTR : a ∉ sortStrings (setDiff current st.allResolved) := by
        rw [hTR]
        intro hc
        exact hc.2 ((h1 a).mpr (by rw [hfa]; exact rfl))
      refine ⟨La, ?_, ?_, ?_⟩
      · rw [layerStep_fst_find, if_neg haTR]
        exact hfa
      · intro Lb
        rw [layerStep_fst_find]
        by_cases hb : b ∈ sortStrings (setDiff current st.allResolved)
        · rw [if_pos hb]
          intro h
          obtain rfl : layer = Lb := by injection h
          have hbcur := (hTR b).mp hb
          have hbnone : dictFind b st.domainLayers = none := by
            cases hfind : dictFind b st.domainLayers with
            | none => rfl
            | some q => exact absurd ((h1 b).mpr (by rw [hfind]; exact rfl)) hbcur.2
          have := (hnone hbnone).2.2
          omega
        · rw [if_neg hb]
          exact hsome Lb
      · rw [layerStep_fst_find]
        by_cases hb : b ∈ sortStrings (setDiff current st.allResolved)
        · rw [if_pos hb]
          intro h
          exact absurd h (by simp)
        · rw [if_neg hb]
          intro hbnone
          obtain ⟨hbc, hbna, -⟩ := hnone hbnone
          exact absurd ((hTR b).mpr ⟨hbc, hbna⟩) hb
    · obtain ⟨hsrc, hna1, hntr, hnext⟩ := hEprop (a, b) hab
      have hbn : b ∉ sortStrings (setDiff current st.allResolved) := by
        rw [hTR]
        intro hc
        exact hna1 (mem_setUnion.mpr (Or.inr (mem_setDiff.mpr hc)))
      refine ⟨layer, ?_, ?_, ?_⟩
      · rw [layerStep_fst_find, if_pos hsrc]
      · intro Lb
        rw [layerStep_fst_find, if_neg hbn]
        intro h
        have : b ∈ st.allResolved := (h1 b).mpr (by rw [h]; exact rfl)
        exact absurd (mem_setUnion.mpr (Or.inl this)) hna1
      · rintro -
        rw [layerStep_fst_allResolved]
        exact ⟨hnext, hna1, rfl⟩

theorem exploreLoop_layersInv (resolver : String → RecordSet) (fuel : Nat) :
    ∀ (layer : Nat) (current : StrSet) (st : EngineState),
    current.Nodup → LayersInv layer current st →
    ∃ layer2 current2,
      LayersInv layer2 current2 (exploreLoop resolver fuel layer current st) := by
  induction fuel with
  | zero => exact fun layer current st _ hinv => ⟨layer, current, hinv⟩
  | succ fuel ih =>
    intro layer current st hcur hinv
    rw [exploreLoop]
    by_cases hempty : (setDiff current st.allResolved).isEmpty
    · rw [if_pos hempty]
      exact ⟨layer, current, hinv⟩
    · rw [if_neg hempty]
      exact ih (layer + 1) _ _ layerStep_snd_nodup (layerStep_layersInv hcur hinv)

/-! ## Lemmas about the DiGraph model -/

/-- Well-formedness maintained by the graph constructors: node keys are
unique, the adjacency list runs over exactly the node keys in the same
order, and successor lists hold no duplicates. -/
def GraphWF (g : DiGraph) : Prop :=
  (g.nodes.map Prod.fst).Nodup ∧
  g.adj.map Prod.fst = g.nodes.map Prod.fst ∧
  ∀ e ∈ g.adj, e.2.Nodup

theorem dictFind_eq_none_iff {β : Type} {m : List (String × β)} {k : String} :
    dictFind k m = none ↔ k ∉ m.map Prod.fst := by
  induction m with
  | nil => simp [dictFind]
  | cons e es ih =>
    by_cases he : e.1 = k
    · subst he
      simp [dictFind]
    · show (if e.1 = k then some e.2 else dictFind k es) = none ↔ _
      rw [if_neg he, ih]
      simp only [List.map_cons, List.mem_cons]
      constructor
      · intro h hc
        rcases hc with hc | hc
        · exact he hc.symm
        · exact h hc
      · intro h hc
        exact h (Or.inr hc)

theorem dictFind_isSome_iff {β : Type} {m : List (String × β)} {k : String} :
    (dictFind k m).isSome ↔ k ∈ m.map Prod.fst := by
  cases hf : dictFind k m with
  | none =>
    simp only [Option.isSome_none, Bool.false_eq_true, false_iff]
    exact dictFind_eq_none_iff.mp hf
  | some v =>
    simp only [Option.isSome_some, true_iff]
    by_contra hc
    rw [← dictFind_eq_none_iff, hf] at hc
    exact absurd hc (by simp)

theorem graphWF_empty : GraphWF emptyGraph := by
  refine ⟨List.nodup_nil, rfl, ?_⟩
  intro e he
  exact absurd he (by simp [emptyGraph])

theorem map_fst_update_nodes {nodes : List (String × Option Nat)}
    {d : String} {l : Option Nat} :
    (nodes.map (fun e => if e.1 = d then (d, l) else e)).map Prod.fst =
      nodes.map Prod.fst := by
  rw [List.map_map]
  apply List.map_congr_left
  intro e _
  by_cases he : e.1 = d <;> simp [he]

theorem graphWF_add_node_layer {g : DiGraph} {d : String} {l : Nat}
    (h : GraphWF g) : GraphWF (add_node_layer g d l) := by
  obtain ⟨h1, h2, h3⟩ := h
  unfold add_node_layer
  by_cases hd : (dictFind d g.nodes).isSome
  · rw [if_pos hd]
    exact ⟨by rw [map_fst_update_nodes]; exact h1,
      by rw [map_fst_update_nodes]; exact h2, h3⟩
  · rw [if_neg hd]
    have hnot : d ∉ g.nodes.map Prod.fst := by
      rw [← dictFind_eq_none_iff]
      cases hf : dictFind d g.nodes with
      | none => rfl
      | some v => rw [hf] at hd; exact absurd rfl hd
    refine ⟨?_, ?_, ?_⟩
    · rw [List.map_append, List.nodup_append]
      refine ⟨h1, by simp, ?_⟩
      intro x hx hx2
      simp only [List.map_cons, List.map_nil, List.mem_singleton] at hx2
      subst hx2
      exact hnot hx
    · simp [h2]
    · intro e he
      rw [List.mem_append] at he
      rcases he with he | he
      · exact h3 e he
      · simp only [List.mem_singleton] at he
        subst he
        exact List.nodup_nil

theorem graphWF_ensureNode {g : DiGraph} {d : String}
    (h : GraphWF g) : GraphWF (ensureNode g d) := by
  obtain ⟨h1, h2, h3⟩ := h
  unfold ensureNode
  by_cases hd : (dictFind d g.nodes).isSome
  · rw [if_pos hd]
    exact ⟨h1, h2, h3⟩
  · rw [if_neg hd]
    have hnot : d ∉ g.nodes.map Prod.fst := by
      rw [← dictFind_eq_none_iff]
      cases hf : dictFind d g.nodes with
      | none => rfl
      | some v => rw [hf] at hd; exact absurd rfl hd
    refine ⟨?_, ?_, ?_⟩
    · rw [List.map_append, List.nodup_append]
      refine ⟨h1, by simp, ?_⟩
      intro x hx hx2
      simp only [List.map_cons, List.map_nil, List.mem_singleton] at hx2
      subst hx2
      exact hnot hx
    · simp [h2]
    · intro e he
      rw [List.mem_append] at he
      rcases he with he | he
      · exact h3 e he
      · simp only [List.mem_singleton] at he
        subst he
        exact List.nodup_nil

theorem ensureNode_mem_keys {g : DiGraph} {d : String} :
    d ∈ (ensureNode g d).nodes.map Prod.fst := by
  unfold ensureNode
  by_cases hd : (dictFind d g.nodes).isSome
  · rw [if_pos hd]
    exact dictFind_isSome_iff.mp hd
  · rw [if_neg hd]
    simp

theorem ensureNode_keys_mono {g : DiGraph} {d x : String}
    (h : x ∈ g.nodes.map Prod.fst) :
    x ∈ (ensureNode g d).nodes.map Prod.fst := by
  unfold ensureNode
  by_cases hd : (dictFind d g.nodes).isSome
  · rw [if_pos hd]
    exact h
  · rw [if_neg hd]
    simp only [List.map_append, List.mem_append]
    exact Or.inl h

theorem mem_digraphEdges {g : DiGraph} {a b : String} :
    (a, b) ∈ digraphEdges g ↔ ∃ e ∈ g.adj, e.1 = a ∧ b ∈ e.2 := by
  unfold digraphEdges
  rw [List.mem_flatMap]
  constructor
  · rintro ⟨e, he, hmem⟩
    rw [List.mem_map] at hmem
    obtain ⟨t, ht, heq⟩ := hmem
    injection heq with hq1 hq2
    subst hq1
    subst hq2
    exact ⟨e, he, rfl, ht⟩
  · rintro ⟨e, he, rfl, hb⟩
    exact ⟨e, he, List.mem_map.mpr ⟨b, hb, rfl⟩⟩

theorem mem_digraphEdges_ensureNode {g : DiGraph} {d a b : String} :
    (a, b) ∈ digraphEdges (ensureNode g d) ↔ (a, b) ∈ digraphEdges g := by
  rw [mem_digraphEdges, mem_digraphEdges]
  unfold ensureNode
  by_cases hd : (dictFind d g.nodes).isSome
  · rw [if_pos hd]
  · rw [if_neg hd]
    constructor
    · rintro ⟨e, he, hprop⟩
      simp only [List.mem_append, List.mem_singleton] at he
      rcases he with he | he
      · exact ⟨e, he, hprop⟩
      · subst he
        exact absurd hprop.2 (by simp)
    · rintro ⟨e, he, hprop⟩
      exact ⟨e, by simp [he], hprop⟩

theorem graphWF_add_edge {g : DiGraph} {s t : String}
    (h : GraphWF g) : GraphWF (add_edge g s t) := by
  have hg1 : GraphWF (ensureNode (ensureNode g s) t) :=
    graphWF_ensureNode (graphWF_ensureNode h)
  obtain ⟨h1, h2, h3⟩ := hg1
  unfold add_edge
  refine ⟨h1, ?_, ?_⟩
  · have hfst : ((ensureNode (ensureNode g s) t).adj.map (fun e =>
        if e.1 = s then (e.1, if t ∈ e.2 then e.2 else e.2 ++ [t]) else e)).map
        Prod.fst = (ensureNode (ensureNode g s) t).adj.map Prod.fst := by
      rw [List.map_map]
      apply List.map_congr_left
      intro e _
      by_cases he : e.1 = s <;> simp [he]
    rw [hfst]
    exact h2
  · intro e he
    rw [List.mem_map] at he
    obtain ⟨e0, he0, rfl⟩ := he
    by_cases hes : e0.1 = s
    · rw [if_pos hes]
      by_cases hte : t ∈ e0.2
      · rw [if_pos hte]
        exact h3 e0 he0
      · rw [if_neg hte]
        show (e0.2 ++ [t]).Nodup
        rw [List.nodup_append]
        refine ⟨h3 e0 he0, by simp, ?_⟩
        intro x hx hx2
        simp only [List.mem_singleton] at hx2
        subst hx2
        exact hte hx
    · rw [if_neg hes]
      exact h3 e0 he0

theorem mem_adjPairs_update (adj : List (String × List String))
    (s t a b : String) (hs : s ∈ adj.map Prod.fst) :
    ((a, b) ∈ (adj.map (fun e =>
        if e.1 = s then (e.1, if t ∈ e.2 then e.2 else e.2 ++ [t])
        else e)).flatMap (fun e => e.2.map (fun x => (e.1, x)))) ↔
      (a = s ∧ b = t) ∨
        (a, b) ∈ adj.flatMap (fun e => e.2.map (fun x => (e.1, x))) := by
  have memPairs : ∀ (l : List (String × List String)),
      ((a, b) ∈ l.flatMap (fun e => e.2.map (fun x => (e.1, x)))) ↔
        ∃ e ∈ l, e.1 = a ∧ b ∈ e.2 := by
    intro l
    rw [List.mem_flatMap]
    constructor
    · rintro ⟨e, he, hmem⟩
      rw [List.mem_map] at hmem
      obtain ⟨x, hx, heq⟩ := hmem
      injection heq with hq1 hq2
      subst hq1
      subst hq2
      exact ⟨e, he, rfl, hx⟩
    · rintro ⟨e, he, rfl, hb⟩
      exact ⟨e, he, List.mem_map.mpr ⟨b, hb, rfl⟩⟩
  rw [memPairs, memPairs]
  constructor
  · rintro ⟨e, he, h1, h2⟩
    rw [List.mem_map] at he
    obtain ⟨e0, he0, rfl⟩ := he
    by_cases hes : e0.1 = s
    · have hfe : (if e0.1 = s then (e0.1, if t ∈ e0.2 then e0.2 else e0.2 ++ [t])
          else e0) = (e0.1, if t ∈ e0.2 then e0.2 else e0.2 ++ [t]) := if_pos hes
      rw [hfe] at h1 h2
      have h1e : e0.1 = a := h1
      by_cases hte : t ∈ e0.2
      · rw [if_pos hte] at h2
        exact Or.inr ⟨e0, he0, h1e, h2⟩
      · rw [if_neg hte] at h2
        have h2e : b ∈ e0.2 ++ [t] := h2
        rw [List.mem_append] at h2e
        rcases h2e with h2e | h2e
        · exact Or.inr ⟨e0, he0, h1e, h2e⟩
        · simp only [List.mem_singleton] at h2e
          subst h2e
          refine Or.inl ⟨?_, rfl⟩
          rw [← h1e]
          exact hes
    · have hfe : (if e0.1 = s then (e0.1, if t ∈ e0.2 then e0.2 else e0.2 ++ [t])
          else e0) = e0 := if_neg hes
      rw [hfe] at h1 h2
      exact Or.inr ⟨e0, he0, h1, h2⟩
  · rintro (⟨ha, hb⟩ | ⟨e, he, h1, h2⟩)
    · subst ha
      subst hb
      rw [List.mem_map] at hs
      obtain ⟨e0, he0, hes⟩ := hs
      refine ⟨(e0.1, if b ∈ e0.2 then e0.2 else e0.2 ++ [b]), ?_, hes, ?_⟩
      · rw [List.mem_map]
        exact ⟨e0, he0, if_pos hes⟩
      · by_cases hte : b ∈ e0.2
        · rw [if_pos hte]
          exact hte
        · rw [if_neg hte]
          rw [List.mem_append]
          right
          simp
    · refine ⟨if e.1 = s then (e.1, if t ∈ e.2 then e.2 else e.2 ++ [t]) else e,
        List.mem_map.mpr ⟨e, he, rfl⟩, ?_⟩
      by_cases hes : e.1 = s
      · rw [if_pos hes]
        refine ⟨h1, ?_⟩
        by_cases hte : t ∈ e.2
        · rw [if_pos hte]
          exact h2
        · rw [if_neg hte]
          rw [List.mem_append]
          exact Or.inl h2
      · rw [if_neg hes]
        exact ⟨h1, h2⟩

theorem mem_digraphEdges_add_edge {g : DiGraph} {s t a b : String}
    (h : GraphWF g) :
    (a, b) ∈ digraphEdges (add_edge g s t) ↔
      (a = s ∧ b = t) ∨ (a, b) ∈ digraphEdges g := by
  have hg1 : GraphWF (ensureNode (ensureNode g s) t) :=
    graphWF_ensureNode (graphWF_ensureNode h)
  have hskeys : s ∈ (ensureNode (ensureNode g s) t).adj.map Prod.fst := by
    rw [hg1.2.1]
    exact ensureNode_keys_mono ensureNode_mem_keys
  have hmain : (a, b) ∈ digraphEdges (add_edge g s t) ↔
      (a = s ∧ b = t) ∨
        (a, b) ∈ digraphEdges (ensureNode (ensureNode g s) t) :=
    mem_adjPairs_update (ensureNode (ensureNode g s) t).adj s t a b hskeys
  rw [hmain, mem_digraphEdges_ensureNode, mem_digraphEdges_ensureNode]

theorem nodup_adjPairs : ∀ (adj : List (String × List String)),
    (adj.map Prod.fst).Nodup → (∀ e ∈ adj, e.2.Nodup) →
    (adj.flatMap (fun e => e.2.map (fun t => (e.1, t)))).Nodup := by
  intro adj
  induction adj with
  | nil =>
    intro _ _
    simp
  | cons e rest ih =>
    intro hkeys hlists
    rw [List.flatMap_cons, List.nodup_append]
    simp only [List.map_cons, List.nodup_cons] at hkeys
    refine ⟨?_, ?_, ?_⟩
    · apply List.Nodup.map
      · intro t1 t2 heq
        injection heq
      · exact hlists e (by simp)
    · exact ih hkeys.2 (fun e2 he2 => hlists e2 (by simp [he2]))
    · intro q hq hq2
      rw [List.mem_map] at hq
      obtain ⟨x, -, rfl⟩ := hq
      rw [List.mem_flatMap] at hq2
      obtain ⟨e2, he2, hmem⟩ := hq2
      rw [List.mem_map] at hmem
      obtain ⟨x2, -, heq⟩ := hmem
      have he1 : e2.1 = e.1 := by injection heq
      exact hkeys.1 (he1 ▸ List.mem_map.mpr ⟨e2, he2, rfl⟩)

theorem nodup_digraphEdges {g : DiGraph} (h : GraphWF g) :
    (digraphEdges g).Nodup := by
  obtain ⟨h1, h2, h3⟩ := h
  exact nodup_adjPairs g.adj (by rw [h2]; exact h1) h3

theorem buildGraph_nodesOnly_edges (all_domains : List (String × Nat)) :
    GraphWF (all_domains.foldl (fun g dl => add_node_layer g dl.1 dl.2)
      emptyGraph) ∧
    ∀ q, q ∉ digraphEdges (all_domains.foldl
      (fun g dl => add_node_layer g dl.1 dl.2) emptyGraph) := by
  have main : ∀ (l : List (String × Nat)) (g : DiGraph), GraphWF g →
      (∀ e ∈ g.adj, e.2 = []) →
      GraphWF (l.foldl (fun g dl => add_node_layer g dl.1 dl.2) g) ∧
      ∀ e ∈ (l.foldl (fun g dl => add_node_layer g dl.1 dl.2) g).adj,
        e.2 = [] := by
    intro l
    induction l with
    | nil => exact fun g hwf hemp => ⟨hwf, hemp⟩
    | cons dl rest ih =>
      intro g hwf hemp
      apply ih
      · exact graphWF_add_node_layer hwf
      · intro e he
        unfold add_node_layer at he
        dsimp only at he
        split at he
        · exact hemp e he
        · have he2 : e ∈ g.adj ++ [(dl.1, [])] := he
          rw [List.mem_append] at he2
          rcases he2 with he2 | he2
          · exact hemp e he2
          · simp only [List.mem_singleton] at he2
            subst he2
            rfl
  obtain ⟨hwf, hemp⟩ := main all_domains emptyGraph graphWF_empty
    (fun e he => absurd he (by simp [emptyGraph]))
  refine ⟨hwf, ?_⟩
  intro q hq
  obtain ⟨a, b⟩ := q
  rw [mem_digraphEdges] at hq
  obtain ⟨e, he, -, hb⟩ := hq
  rw [hemp e he] at hb
  exact absurd hb (by simp)

theorem buildGraph_edges_spec (all_domains : List (String × Nat))
    (edges : List (String × String)) :
    GraphWF (buildGraph all_domains edges) ∧
    ∀ a b, (a, b) ∈ digraphEdges (buildGraph all_domains edges) ↔
      (a, b) ∈ edges := by
  obtain ⟨hwf0, hemp0⟩ := buildGraph_nodesOnly_edges all_domains
  have main : ∀ (es : List (String × String)) (g : DiGraph), GraphWF g →
      GraphWF (es.foldl (fun g e => add_edge g e.1 e.2) g) ∧
      ∀ a b, (a, b) ∈ digraphEdges (es.foldl (fun g e => add_edge g e.1 e.2) g) ↔
        (a, b) ∈ digraphEdges g ∨ (a, b) ∈ es := by
    intro es
    induction es with
    | nil => exact fun g hwf => ⟨hwf, fun a b => by simp⟩
    | cons e0 rest ih =>
      intro g hwf
      obtain ⟨hwf2, hmem2⟩ := ih (add_edge g e0.1 e0.2) (graphWF_add_edge hwf)
      refine ⟨hwf2, ?_⟩
      intro a b
      rw [List.foldl_cons, hmem2 a b, mem_digraphEdges_add_edge hwf]
      simp only [List.mem_cons]
      constructor
      · rintro ((⟨rfl, rfl⟩ | hg) | hr)
        · exact Or.inr (Or.inl rfl)
        · exact Or.inl hg
        · exact Or.inr (Or.inr hr)
      · rintro (hg | heq | hr)
        · exact Or.inl (Or.inr hg)
        · subst heq
          exact Or.inl (Or.inl ⟨rfl, rfl⟩)
        · exact Or.inr hr
  obtain ⟨hwf, hmem⟩ := main edges _ hwf0
  refine ⟨hwf, ?_⟩
  intro a b
  unfold buildGraph
  rw [hmem a b]
  constructor
  · rintro (hg | hr)
    · exact absurd hg (hemp0 (a, b))
    · exact hr
  · exact Or.inr

/-! ## Case and trailing-dot helpers for the normalization claim -/

/-- ASCII lowercasing of one character, the fragment of Python str.lower
relevant to domain names. -/
def lowerChar (c : Char) : Char :=
  if 'A' ≤ c ∧ c ≤ 'Z' then Char.ofNat (c.toNat + 32) else c

/-- ASCII lowercasing of a string. -/
def lowerStr (s : String) : String := (s.data.map lowerChar).asString

theorem head_dropWhile_false {α : Type} (p : α → Bool) (l : List α) {c : α}
    (h : (l.dropWhile p).head? = some c) : p c = false := by
  induction l with
  | nil => simp [List.dropWhile] at h
  | cons x xs ih =>
    rw [List.dropWhile_cons] at h
    by_cases hp : p x
    · rw [if_pos hp] at h
      exact ih h
    · rw [if_neg hp] at h
      simp only [List.head?_cons, Option.some.injEq] at h
      subst h
      exact Bool.eq_false_iff.mpr hp

/-- The rstrip used on record-derived values never leaves a trailing dot. -/
theorem getLast_pyRstripDot (v : String) :
    (pyRstripDot v).data.getLast? ≠ some '.' := by
  intro h
  have h2 : ((v.data.reverse.dropWhile (fun c => c = '.')).reverse).getLast? =
      some '.' := h
  rw [List.getLast?_reverse] at h2
  have h3 := head_dropWhile_false (fun c => decide (c = '.')) v.data.reverse h2
  simp at h3

/-! ## Lemmas about the hierarchical layout -/

theorem mem_insertDesc {key : String → ℚ} {x z : String} {l : List String} :
    z ∈ insertDesc key x l ↔ z = x ∨ z ∈ l := by
  induction l with
  | nil => simp [insertDesc]
  | cons y ys ih =>
    unfold insertDesc
    split
    · simp
    · simp only [List.mem_cons, ih]
      tauto

theorem insertDesc_perm (key : String → ℚ) (x : String) (l : List String) :
    (insertDesc key x l).Perm (x :: l) := by
  induction l with
  | nil => exact List.Perm.refl _
  | cons y ys ih =>
    unfold insertDesc
    split
    · exact List.Perm.refl _
    · exact (ih.cons y).trans (List.Perm.swap x y ys)

theorem stableSortDesc_perm (key : String → ℚ) (l : List String) :
    (stableSortDesc key l).Perm l := by
  have main : ∀ (l acc : List String),
      (l.foldl (fun a x => insertDesc key x a) acc).Perm (acc ++ l) := by
    intro l
    induction l with
    | nil =>
      intro acc
      simp
    | cons x xs ih =>
      intro acc
      rw [List.foldl_cons]
      refine (ih (insertDesc key x acc)).trans ?_
      exact ((insertDesc_perm key x acc).append_right xs).trans
        List.perm_middle.symm
  simpa using main l []

theorem pairwise_insertDesc {key : String → ℚ} {x : String} {l : List String}
    (h : l.Pairwise (fun a b => key b ≤ key a)) :
    (insertDesc key x l).Pairwise (fun a b => key b ≤ key a) := by
  induction l with
  | nil => simp [insertDesc]
  | cons y ys ih =>
    unfold insertDesc
    rw [List.pairwise_cons] at h
    split
    · rename_i hgt
      rw [List.pairwise_cons]
      refine ⟨?_, List.pairwise_cons.mpr h⟩
      intro z hz
      rcases List.mem_cons.mp hz with rfl | hz
      · exact le_of_lt hgt
      · exact le_trans (h.1 z hz) (le_of_lt hgt)
    · rename_i hng
      rw [List.pairwise_cons]
      refine ⟨?_, ih h.2⟩
      intro z hz
      rcases mem_insertDesc.mp hz with rfl | hz
      · exact le_of_not_lt hng
      · exact h.1 z hz

theorem pairwise_stableSortDesc (key : String → ℚ) (l : List String) :
    (stableSortDesc key l).Pairwise (fun a b => key b ≤ key a) := by
  have main : ∀ (l acc : List String),
      acc.Pairwise (fun a b => key b ≤ key a) →
      (l.foldl (fun a x => insertDesc key x a) acc).Pairwise
        (fun a b => key b ≤ key a) := by
    intro l
    induction l with
    | nil => exact fun acc h => h
    | cons x xs ih =>
      intro acc h
      rw [List.foldl_cons]
      exact ih _ (pairwise_insertDesc h)
  exact main l [] List.Pairwise.nil

theorem placeRun_eq (x : ℚ) (tgt : String → ℚ) (ns : List String)
    (h : ns ≠ []) :
    placeRun x tgt ns = ns.enum.map (fun ie =>
      (ie.2, (x, meanQ (ns.map tgt) + ((ns.length : ℚ) - 1) * y_spacing / 2 -
        (ie.1 : ℚ) * y_spacing))) := by
  match ns with
  | [] => exact absurd rfl h
  | [n] =>
    show [(n, (x, tgt n))] = [(n, (x, meanQ ([n].map tgt) +
      (((1 : Nat) : ℚ) - 1) * y_spacing / 2 - ((0 : Nat) : ℚ) * y_spacing))]
    have hy : meanQ ([n].map tgt) + (((1 : Nat) : ℚ) - 1) * y_spacing / 2 -
        ((0 : Nat) : ℚ) * y_spacing = tgt n := by
      simp [meanQ]
    rw [hy]
  | n :: m :: rest => rfl

theorem sum_range_affine (a y : ℚ) (n : Nat) :
    ((List.range n).map (fun i : ℕ => a - (i : ℚ) * y)).sum =
      n * a - ((n : ℚ) * ((n : ℚ) - 1) / 2) * y := by
  induction n with
  | zero => simp
  | succ m ih =>
    rw [List.range_succ, List.map_append, List.sum_append, ih]
    simp only [List.map_cons, List.map_nil, List.sum_cons, List.sum_nil]
    push_cast
    ring

theorem map_snd_placeRun (x : ℚ) (tgt : String → ℚ) (ns : List String)
    (h : ns ≠ []) :
    (placeRun x tgt ns).map (fun q => q.2.2) =
      (List.range ns.length).map (fun i : ℕ =>
        meanQ (ns.map tgt) + ((ns.length : ℚ) - 1) * y_spacing / 2 -
          (i : ℚ) * y_spacing) := by
  rw [placeRun_eq x tgt ns h, List.map_map]
  have h2 : ns.enum.map ((fun q : String × ℚ × ℚ => q.2.2) ∘ (fun ie : ℕ × String =>
      (ie.2, (x, meanQ (ns.map tgt) + ((ns.length : ℚ) - 1) * y_spacing / 2 -
        (ie.1 : ℚ) * y_spacing)))) =
      (ns.enum.map Prod.fst).map (fun i : ℕ =>
        meanQ (ns.map tgt) + ((ns.length : ℚ) - 1) * y_spacing / 2 -
          (i : ℚ) * y_spacing) := by
    rw [List.map_map]
    rfl
  rw [h2, List.enum_map_fst]

theorem meanQ_placeRun (x : ℚ) (tgt : String → ℚ) (ns : List String)
    (h : ns ≠ []) :
    meanQ ((placeRun x tgt ns).map (fun q => q.2.2)) = meanQ (ns.map tgt) := by
  rw [map_snd_placeRun x tgt ns h]
  have hn : ((ns.length : ℚ)) ≠ 0 := by
    have := List.length_pos.mpr h
    positivity
  unfold meanQ
  simp only [List.length_map, List.length_range]
  have hsum := sum_range_affine
    ((ns.map tgt).sum / (ns.length : ℚ) + ((ns.length : ℚ) - 1) * y_spacing / 2)
    y_spacing ns.length
  rw [hsum]
  field_simp
  ring

/-- The start height of a placed layer: the mean of the layer's target y
values plus half the total height of the evenly spaced column. -/
def startQ (g : DiGraph) (pos : List (String × ℚ × ℚ)) (l : Nat) : ℚ :=
  meanQ ((layerNodes g l).map (targetY g pos)) +
    (((layerNodes g l).length : ℚ) - 1) * y_spacing / 2

/-! ## Claim theorems -/

/-- C2: get_parent_domain splits the domain on the dot into labels, returns
the domain formed by dropping the leftmost label when there are more than 2
labels, and returns none with 2 or fewer labels; in particular the parent of
a.b.c.com is b.c.com, and example.com and a.b have no parent. -/
theorem C2_parent_rule :
    (∀ domain : String,
      get_parent_domain domain =
        if 2 < (splitOnChar '.' domain.data).length then
          some ((List.intercalate (String.toList (".")) ((splitOnChar '.' domain.data).drop 1)).asString)
        else none) ∧
    get_parent_domain ("a.b.c.com") = some ("b.c.com") ∧
    get_parent_domain ("example.com") = none ∧
    get_parent_domain ("a.b") = none := by
  refine ⟨fun domain => rfl, by decide, by decide, by decide⟩

/-- C5: on the record set with MX value 10 mail.example.com and the SPF TXT
value, extract_domains_from_records for example.com returns exactly the set
of the three referenced domains (and no parent, example.com having only 2
labels): its result list is exactly those three names, and membership in it
is equivalent to being one of them. -/
theorem C5_extract_scenario :
    extract_domains_from_records
        [(("MX" : String), ["10 mail.example.com"]),
         (("TXT" : String), ["v=spf1 include:spf.example.net redirect=foo.example.org"])]
        ("example.com") =
      ["mail.example.com", "spf.example.net", "foo.example.org"] ∧
    ∀ x : String,
      x ∈ extract_domains_from_records
        [(("MX" : String), ["10 mail.example.com"]),
         (("TXT" : String), ["v=spf1 include:spf.example.net redirect=foo.example.org"])]
        ("example.com") ↔
      (x = "mail.example.com" ∨ x = "spf.example.net" ∨ x = "foo.example.org") := by
  have h :
      extract_domains_from_records
          [(("MX" : String), ["10 mail.example.com"]),
           (("TXT" : String), ["v=spf1 include:spf.example.net redirect=foo.example.org"])]
          ("example.com") =
        ["mail.example.com", "spf.example.net", "foo.example.org"] := by decide
  exact ⟨h, fun x => by rw [h]; simp⟩

/-- C3 as stated is false on the code: in the run from a.b.example.com with
2 layers and a record resolver that finds nothing, the accumulated edge list
is not the single edge toward b.example.com (each parent edge is appended
twice, and layer 2 adds edges toward example.com), and the parent of
b.example.com is example.com rather than none, b.example.com having 3
labels. -/
theorem C3_counterexample :
    (explore_dns emptyResolver ("a.b.example.com") 2).graphEdges ≠
      [(("a.b.example.com" : String), ("b.example.com" : String))] ∧
    get_parent_domain ("b.example.com") = some ("example.com") := by
  refine ⟨by decide, by decide⟩

/-- C3 amended: the run from a.b.example.com with 2 layers and an empty
record resolver visits exactly a.b.example.com (layer 1) and b.example.com
(layer 2); its edge list holds the edge toward b.example.com twice and the
edge from b.example.com toward example.com twice (each parent edge is
appended once by the parent check and once via the extracted set); and the
run stops after layer 2 only because max_layers is reached: the parent
example.com of b.example.com was scheduled, and a third layer would resolve
it. -/
theorem C3_amended_scenario :
    (explore_dns emptyResolver ("a.b.example.com") 2).allResolved =
      ["a.b.example.com", "b.example.com"] ∧
    dictFind ("a.b.example.com")
      (explore_dns emptyResolver ("a.b.example.com") 2).domainLayers = some 1 ∧
    dictFind ("b.example.com")
      (explore_dns emptyResolver ("a.b.example.com") 2).domainLayers = some 2 ∧
    (explore_dns emptyResolver ("a.b.example.com") 2).graphEdges =
      [("a.b.example.com", "b.example.com"), ("a.b.example.com", "b.example.com"),
       ("b.example.com", "example.com"), ("b.example.com", "example.com")] ∧
    (explore_dns emptyResolver ("a.b.example.com") 3).resolvedLog =
      ["a.b.example.com", "b.example.com", "example.com"] := by
  refine ⟨by decide, by decide, by decide, by decide, by decide⟩

/-- C6: explore_dns performs no validation of its configuration: called with
max_layers = 0 it silently runs zero layers and returns the empty state
(resolving nothing, raising nothing), and called with an empty start domain
it runs normally and resolves the empty string as a domain, against the
claim that invalid configurations are rejected before any discovery work. -/
theorem C6_no_validation :
    explore_dns emptyResolver ("a.b.c") 0 =
      { allResolved := [], graphEdges := [], domainLayers := [],
        layerLog := [], resolvedLog := [] } ∧
    (explore_dns emptyResolver ("") 1).resolvedLog = [""] ∧
    (explore_dns emptyResolver ("") 1).allResolved = [""] := by
  refine ⟨by decide, by decide, by decide⟩

/-- C1: in every discovery run, the record resolver is invoked at most once
per domain (the resolver call log has no duplicates), each domain enters the
visited set at most once (all_resolved has no duplicates), and the resolved
domains are exactly the visited ones: once a domain is merged into
all_resolved, no later layer resolves it again. -/
theorem C1_no_duplicate_visitation (resolver : String → RecordSet)
    (domain : String) (max_layers : Nat) :
    (explore_dns resolver domain max_layers).resolvedLog.Nodup ∧
    (explore_dns resolver domain max_layers).allResolved.Nodup ∧
    ∀ x, x ∈ (explore_dns resolver domain max_layers).resolvedLog ↔
      x ∈ (explore_dns resolver domain max_layers).allResolved := by
  unfold explore_dns
  exact exploreLoop_no_duplicates resolver max_layers 1 [domain] _
    (List.nodup_singleton domain) List.nodup_nil List.nodup_nil
    (fun x => Iff.rfl)

/-- C4: in every discovery run, the layer assignment log assigns each domain
at most once and agrees with the final layer dict, a domain is visited
exactly when it has a layer, and every recorded edge (a, b) has a layer for
its source a such that any layer recorded for its target b is exactly
layer(a) + 1 (targets of the final frontier keep no layer at all, being
never visited). -/
theorem C4_layer_monotonicity (resolver : String → RecordSet)
    (domain : String) (max_layers : Nat) :
    ((explore_dns resolver domain max_layers).layerLog.map Prod.fst).Nodup ∧
    (∀ x L, (x, L) ∈ (explore_dns resolver domain max_layers).layerLog ↔
      dictFind x (explore_dns resolver domain max_layers).domainLayers = some L) ∧
    (∀ x, x ∈ (explore_dns resolver domain max_layers).allResolved ↔
      (dictFind x (explore_dns resolver domain max_layers).domainLayers).isSome) ∧
    (∀ a b, (a, b) ∈ (explore_dns resolver domain max_layers).graphEdges →
      ∃ La, dictFind a (explore_dns resolver domain max_layers).domainLayers =
          some La ∧
        ∀ Lb, dictFind b (explore_dns resolver domain max_layers).domainLayers =
          some Lb → Lb = La + 1) := by
  have hinit : LayersInv 1 [domain]
      { allResolved := [], graphEdges := [], domainLayers := [],
        layerLog := [], resolvedLog := [] } := by
    refine ⟨?_, ?_, ?_, ?_, ?_⟩
    · intro x
      simp [dictFind]
    · intro x L h
      exact absurd h (by simp [dictFind])
    · intro x L
      simp [dictFind]
    · exact List.nodup_nil
    · intro a b h
      exact absurd h (by simp)
  obtain ⟨layer2, current2, hinv⟩ :=
    exploreLoop_layersInv resolver max_layers 1 [domain] _
      (List.nodup_singleton domain) hinit
  obtain ⟨g1, g2, g3, g4, g5⟩ := hinv
  refine ⟨g4, g3, g1, ?_⟩
  intro a b hab
  obtain ⟨La, hfa, hsome, -⟩ := g5 a b hab
  exact ⟨La, hfa, hsome⟩

/-- C10: within a resolved layer, a domain d of the layer whose structural
parent p exists and is nonempty (Python truthiness) and is neither already
visited nor in the layer itself gets the edge (d, p) appended exactly twice:
once by the explicit parent check and once more through the extracted set,
which always contains the parent. -/
theorem C10_parent_edge_twice (resolver : String → RecordSet)
    (toResolve : StrSet) (layer_num : Nat) (allResolved : StrSet)
    (st : EngineState) (d p : String)
    (hd : d ∈ toResolve) (hnodup : toResolve.Nodup)
    (hg : get_parent_domain d = some p) (hne : p ≠ "")
    (hpa : p ∉ allResolved) (hpt : p ∉ toResolve) :
    List.count ((d, p) : String × String)
        (resolve_layer resolver toResolve layer_num allResolved st).1.graphEdges =
      List.count ((d, p) : String × String) st.graphEdges + 2 := by
  unfold resolve_layer
  rw [foldl_processDomain_count hg hne hpa hpt]
  have hcount : (sortStrings toResolve).count d = 1 := by
    rw [(sortStrings_perm toResolve).count_eq]
    exact List.count_eq_one_of_mem hnodup hd
  rw [hcount]

/-- Witness for C10 at a concrete input: resolving the layer consisting of
a.b.c alone, with no records found, against the visited set that already
holds a.b.c, appends the parent edge toward b.c exactly twice. -/
theorem C10_parent_edge_twice_witness :
    List.count ((("a.b.c" : String), ("b.c" : String)))
        (resolve_layer emptyResolver ["a.b.c"] 1 ["a.b.c"]
          { allResolved := ["a.b.c"], graphEdges := [], domainLayers := [],
            layerLog := [], resolvedLog := [] }).1.graphEdges =
      List.count ((("a.b.c" : String), ("b.c" : String)))
        ({ allResolved := ["a.b.c"], graphEdges := [], domainLayers := [],
           layerLog := [], resolvedLog := [] } : EngineState).graphEdges + 2 :=
  C10_parent_edge_twice emptyResolver ["a.b.c"] 1 ["a.b.c"]
    { allResolved := ["a.b.c"], graphEdges := [], domainLayers := [],
      layerLog := [], resolvedLog := [] }
    ("a.b.c") ("b.c") (by decide) (by decide) (by decide) (by decide)
    (by decide) (by decide)

/-- C7 as stated is false on the code: with the pair (a.b, c.d) stored twice
in the edge list, the DOT output contains the corresponding edge statement
once, not twice, because the edges pass through the directed-graph structure
whose add_edge absorbs a repeated pair. The output has 15 lines: the 10
preamble lines, 2 node statements, a blank line, a single edge statement and
the closing brace. -/
theorem C7_counterexample :
    List.count ((("a.b" : String), ("c.d" : String)))
        [(("a.b" : String), ("c.d" : String)),
         (("a.b" : String), ("c.d" : String))] = 2 ∧
    (export_to_dot (buildGraph [(("a.b" : String), 1)]
        [(("a.b" : String), ("c.d" : String)),
         (("a.b" : String), ("c.d" : String))])
      layer_colors default_color).count
      (dotEdgeLine ("a.b") ("c.d") ("#6624a8")) = 1 ∧
    (export_to_dot (buildGraph [(("a.b" : String), 1)]
        [(("a.b" : String), ("c.d" : String)),
         (("a.b" : String), ("c.d" : String))])
      layer_colors default_color).length = 15 := by
  refine ⟨by decide, by decide, by decide⟩

/-- C7 amended: the DOT serializer emits one edge statement per distinct
(source, target) pair of the stored edge list: the graph's edge enumeration
has no duplicates, a pair is enumerated exactly when it occurs in the stored
list, and the output is the preamble, the node statements colored by layer,
a blank line, one edge statement per graph edge colored by the source
node's layer, and the closing brace, with double quotes escaped inside the
statement builders. -/
theorem C7_amended_dedup (all_domains : List (String × Nat))
    (edges : List (String × String)) (lc : List (Nat × String)) (dc : String) :
    (digraphEdges (buildGraph all_domains edges)).Nodup ∧
    (∀ a b, (a, b) ∈ digraphEdges (buildGraph all_domains edges) ↔
      (a, b) ∈ edges) ∧
    export_to_dot (buildGraph all_domains edges) lc dc =
      dotHeader ++
      (buildGraph all_domains edges).nodes.map (fun e =>
        dotNodeLine e.1 (colorFor lc dc (layerOfEntry e))) ++
      [""] ++
      (digraphEdges (buildGraph all_domains edges)).map (fun e =>
        dotEdgeLine e.1 e.2 (colorFor lc dc
          (nodeLayerD (buildGraph all_domains edges) e.1))) ++
      ["\x7d"] := by
  obtain ⟨hwf, hmem⟩ := buildGraph_edges_spec all_domains edges
  exact ⟨nodup_digraphEdges hwf, hmem, rfl⟩

/-- A resolver returning two case-variant CNAME targets for one domain. -/
def caseVariantResolver : String → RecordSet := fun d =>
  if d = "a.example.com" then
    [(("CNAME" : String), ["MAIL.example.com", "mail.example.com"])]
  else []

/-- C8 as stated is false on the code: nothing is ever lowercased, so the
run that finds the two case-variant spellings MAIL.example.com and
mail.example.com visits both as distinct domains, the stored string
MAIL.example.com containing uppercase characters; and the structural parent
of a trailing-dot domain is stored with its trailing dot, since only
record-derived values are rstripped. -/
theorem C8_counterexample :
    (explore_dns caseVariantResolver ("a.example.com") 2).allResolved =
      ["a.example.com", "example.com", "MAIL.example.com",
       "mail.example.com"] ∧
    lowerStr ("MAIL.example.com") = ("mail.example.com") ∧
    (("MAIL.example.com" : String) ≠ ("mail.example.com" : String)) ∧
    (∃ c ∈ ("MAIL.example.com" : String).data, c.isUpper) ∧
    (("y.z." : String) ∈ extract_domains_from_records [] ("x.y.z.")) ∧
    (("y.z." : String).data.getLast? = some '.') := by
  refine ⟨by decide, by decide, by decide, by decide, by decide, by decide⟩

/-- C8 amended: every domain the extractor returns either ends without a
trailing dot (all record-derived values are rstripped before storage) or is
the structural parent of the queried domain, which is added verbatim;
nothing is lowercased and identity stays exact string equality. -/
theorem C8_amended_normalization (records : RecordSet) (d s : String)
    (h : s ∈ extract_domains_from_records records d) :
    s.data.getLast? ≠ some '.' ∨ get_parent_domain d = some s := by
  unfold extract_domains_from_records at h
  cases hg : get_parent_domain d with
  | none =>
    rw [hg] at h
    obtain ⟨u, rfl⟩ := mem_allRecordSteps_rstrip h
    exact Or.inl (getLast_pyRstripDot u)
  | some p =>
    rw [hg] at h
    have h2 : s ∈ (if p ≠ "" then setInsert p (allRecordSteps records)
        else allRecordSteps records) := h
    by_cases hp : p ≠ ""
    · rw [if_pos hp] at h2
      rcases mem_setInsert.mp h2 with rfl | h3
      · exact Or.inr rfl
      · obtain ⟨u, rfl⟩ := mem_allRecordSteps_rstrip h3
        exact Or.inl (getLast_pyRstripDot u)
    · rw [if_neg hp] at h2
      obtain ⟨u, rfl⟩ := mem_allRecordSteps_rstrip h2
      exact Or.inl (getLast_pyRstripDot u)

/-- Witness for the amended C8 at a concrete input: the parent of the
trailing-dot domain x.y.z. is extracted and gets the right disjunct. -/
theorem C8_amended_normalization_witness :
    (("y.z." : String) ∈ extract_domains_from_records [] ("x.y.z.")) ∧
    ((("y.z." : String).data.getLast? ≠ some '.') ∨
      get_parent_domain ("x.y.z.") = some ("y.z.")) :=
  ⟨by decide, C8_amended_normalization [] ("x.y.z.") ("y.z.") (by decide)⟩

/-- C9 as stated is false on the code: ties in target y are broken by the
graph's node insertion order (Python sorted is stable), not
lexicographically by domain name. The two graphs below carry the same node
map (the same pairs, permuted), with the layer-2 nodes a and b inserted in
opposite orders and no edges, so both layer-2 targets are 0; the layout
places whichever node was inserted first on top, so node a lands at
y = -3/4 in one graph and at y = 3/4 in the other, while a lexicographic
tie-break would give one deterministic result for both. -/
theorem C9_counterexample :
    dictFind ("a") (hierarchical_layout (buildGraph
        [(("s" : String), 1), (("b" : String), 2), (("a" : String), 2)] [])) =
      some (8, -(3/4)) ∧
    dictFind ("a") (hierarchical_layout (buildGraph
        [(("s" : String), 1), (("a" : String), 2), (("b" : String), 2)] [])) =
      some (8, 3/4) ∧
    (([(("s" : String), (1 : Nat)), (("b" : String), 2), (("a" : String), 2)]).Perm
      [(("s" : String), 1), (("a" : String), 2), (("b" : String), 2)]) ∧
    (-(3/4) : ℚ) ≠ 3/4 := by
  refine ⟨?_, ?_, ?_, by norm_num⟩
  · norm_num +decide [hierarchical_layout, sortedLayers, layerNodes, layoutStep,
      layerPlacement, layerSorted, buildGraph, add_node_layer, emptyGraph,
      layerOfEntry, sortNat, insertAscNat, sortStrings, insertAsc, pyStrLe,
      charListLe, stableSortDesc, insertDesc, targetY, preds, placeRun, meanQ,
      x_spacing, y_spacing, dictFind, List.dedup, List.enum]
  · norm_num +decide [hierarchical_layout, sortedLayers, layerNodes, layoutStep,
      layerPlacement, layerSorted, buildGraph, add_node_layer, emptyGraph,
      layerOfEntry, sortNat, insertAscNat, sortStrings, insertAsc, pyStrLe,
      charListLe, stableSortDesc, insertDesc, targetY, preds, placeRun, meanQ,
      x_spacing, y_spacing, dictFind, List.dedup, List.enum]
  · exact List.Perm.cons _ (List.Perm.swap _ _ _)

/-- C9 amended: for every graph, already-placed position map and layer with
nodes, the layer placed by layoutStep sits entirely at x = layer times
x_spacing, its nodes are ordered by target y descending with ties keeping
the graph's node insertion order (which, rather than a lexicographic
tie-break, is what the output is determined by), the placed nodes are
exactly the layer's nodes, the y coordinates walk down from the start
height in even y_spacing steps, and their mean equals the mean of the
layer's target y values, so the column is vertically centered on that
mean. -/
theorem C9_amended_layout (g : DiGraph) (pos : List (String × ℚ × ℚ))
    (l : Nat) (h : layerNodes g l ≠ []) :
    layoutStep g pos l = pos ++ layerPlacement g pos l ∧
    (∀ q ∈ layerPlacement g pos l, q.2.1 = (l : ℚ) * x_spacing) ∧
    (layerSorted g pos l).Pairwise
      (fun a b => targetY g pos b ≤ targetY g pos a) ∧
    (layerSorted g pos l).Perm (layerNodes g l) ∧
    ((layerPlacement g pos l).map (fun q => q.2.2) =
      (List.range (layerNodes g l).length).map
        (fun i : ℕ => startQ g pos l - (i : ℚ) * y_spacing)) ∧
    meanQ ((layerPlacement g pos l).map (fun q => q.2.2)) =
      meanQ ((layerNodes g l).map (targetY g pos)) := by
  have hperm : (layerSorted g pos l).Perm (layerNodes g l) :=
    stableSortDesc_perm (targetY g pos) (layerNodes g l)
  have hlen : (layerSorted g pos l).length = (layerNodes g l).length :=
    hperm.length_eq
  have hne : layerSorted g pos l ≠ [] := by
    intro hc
    apply h
    rw [hc] at hlen
    exact (List.length_eq_zero.mp hlen.symm)
  have hsum : ((layerSorted g pos l).map (targetY g pos)).sum =
      ((layerNodes g l).map (targetY g pos)).sum :=
    (hperm.map (targetY g pos)).sum_eq
  have hmean : meanQ ((layerSorted g pos l).map (targetY g pos)) =
      meanQ ((layerNodes g l).map (targetY g pos)) := by
    unfold meanQ
    rw [hsum, List.length_map, List.length_map, hlen]
  have hstart : meanQ ((layerSorted g pos l).map (targetY g pos)) +
      (((layerSorted g pos l).length : ℚ) - 1) * y_spacing / 2 =
      startQ g pos l := by
    unfold startQ
    rw [hmean, hlen]
  refine ⟨rfl, ?_, ?_, hperm, ?_, ?_⟩
  · intro q hq
    unfold layerPlacement at hq
    rw [placeRun_eq _ _ _ hne] at hq
    obtain ⟨ie, -, rfl⟩ := List.mem_map.mp hq
    rfl
  · exact pairwise_stableSortDesc (targetY g pos) (layerNodes g l)
  · unfold layerPlacement
    rw [map_snd_placeRun _ _ _ hne, hstart, hlen]
  · unfold layerPlacement
    rw [meanQ_placeRun _ _ _ hne, hmean]

/-- The graph of the C9 witness: one layer-1 node and two layer-2 nodes. -/
def c9WitnessGraph : DiGraph :=
  buildGraph [(("s" : String), 1), (("b" : String), 2), (("a" : String), 2)] []

/-- Witness for the amended C9 at a concrete input: layer 2 of the witness
graph is nonempty and the layoutStep conclusions hold there. -/
theorem C9_amended_layout_witness :
    layoutStep c9WitnessGraph [] 2 = [] ++ layerPlacement c9WitnessGraph [] 2 ∧
    (∀ q ∈ layerPlacement c9WitnessGraph [] 2,
      q.2.1 = ((2 : Nat) : ℚ) * x_spacing) ∧
    (layerSorted c9WitnessGraph [] 2).Pairwise
      (fun a b => targetY c9WitnessGraph [] b ≤ targetY c9WitnessGraph [] a) ∧
    (layerSorted c9WitnessGraph [] 2).Perm (layerNodes c9WitnessGraph 2) ∧
    ((layerPlacement c9WitnessGraph [] 2).map (fun q => q.2.2) =
      (List.range (layerNodes c9WitnessGraph 2).length).map
        (fun i : ℕ => startQ c9WitnessGraph [] 2 - (i : ℚ) * y_spacing)) ∧
    meanQ ((layerPlacement c9WitnessGraph [] 2).map (fun q => q.2.2)) =
      meanQ ((layerNodes c9WitnessGraph 2).map (targetY c9WitnessGraph [])) :=
  C9_amended_layout c9WitnessGraph [] 2 (by decide)

end DnsSpec
